import Mathlib

/-! cscan: scanning C input for include directives.

A shallow embedding of `cscan.go` and a verification of its line-splice
utility, newline counting, token window, include-directive assembler and
diagnostics.

Modelling conventions.

* A Go `string` is a sequence of bytes: `List Nat`, one element per byte.
* Byte offsets, counters and line numbers are Go `int`s that the scanner never
  makes negative; they are modelled by `Nat`.
* `input[i]` is only ever evaluated behind a bounds test in the code modelled
  here, so it is read with `byteAt`; a slice expression `input[lo:hi]` can go
  out of range for a badly formed token and is modelled by `slice?`, whose
  `none` stands for Go's run-time panic.
* Every `for` loop of the source is a structural recursion on a fuel argument.
  The fuel handed to each loop by its caller is the number of bytes left, which
  is enough for the loop to reach one of its `return`s: the `*Loop_eq` lemmas
  give the loop's result for every amount of fuel from that number upwards.
-/

namespace cscan

/-! ## Strings as byte sequences -/

/-- The byte `input[pos]`; used only where the source has tested `pos < len(input)`. -/
def byteAt (input : List Nat) (pos : Nat) : Nat := input.getD pos 0

/-- The slice `input[lo:hi]` where the source guarantees `lo <= hi <= len(input)`. -/
def slice (input : List Nat) (lo hi : Nat) : List Nat := (input.drop lo).take (hi - lo)

/-- The slice `input[lo:hi]` as Go evaluates it: a panic (`none`) unless
`lo <= hi <= len(input)`. -/
def slice? (input : List Nat) (lo hi : Nat) : Option (List Nat) :=
  if lo ≤ hi ∧ hi ≤ input.length then some (slice input lo hi) else none

/-- Go's `strings.Join(chunks, "")`. -/
def stringsJoin (chunks : List (List Nat)) : List Nat := chunks.foldr (fun c acc => c ++ acc) []

/-- Go's `strings.Repeat(s, count)` for a non-negative count. -/
def stringsRepeat (s : List Nat) : Nat → List Nat
  | 0 => []
  | n + 1 => s ++ stringsRepeat s n

/-! ## Byte constants -/

/-- The byte `'\\'`. -/
abbrev bBackslash : Nat := 92
/-- The byte `' '`. -/
abbrev bSpace : Nat := 32
/-- The byte `'\t'`. -/
abbrev bTab : Nat := 9
/-- The byte `'\v'`. -/
abbrev bVTab : Nat := 11
/-- The byte `'\r'`. -/
abbrev bCR : Nat := 13
/-- The byte `'\n'`. -/
abbrev bLF : Nat := 10

/-! ## Go library functions used by the diagnostics -/

/-- Go's `strings.IndexAny(s, chars)` for a set `chars` of ASCII bytes, counting
from offset `i`: the index of the first byte of `s` that is in `chars`, or `-1`. -/
def stringsIndexAnyFrom (chars : List Nat) : List Nat → Nat → Int
  | [], _ => -1
  | b :: r, i => if b ∈ chars then (i : Int) else stringsIndexAnyFrom chars r (i + 1)

/-- Go's `strings.IndexAny(s, chars)` for a set `chars` of ASCII bytes. -/
def stringsIndexAny (s chars : List Nat) : Int := stringsIndexAnyFrom chars s 0

/-- Go's `strings.LastIndexAny(s, chars)` for a set `chars` of ASCII bytes, counting
from offset `i` with `last` the index found so far. -/
def stringsLastIndexAnyFrom (chars : List Nat) : List Nat → Nat → Int → Int
  | [], _, last => last
  | b :: r, i, last =>
    stringsLastIndexAnyFrom chars r (i + 1) (if b ∈ chars then (i : Int) else last)

/-- Go's `strings.LastIndexAny(s, chars)` for a set `chars` of ASCII bytes: the
index of the last byte of `s` that is in `chars`, or `-1`. -/
def stringsLastIndexAny (s chars : List Nat) : Int := stringsLastIndexAnyFrom chars s 0 (-1)

/-- The table `first` of Go's `unicode/utf8`: information about the first byte of
a UTF-8 sequence (`0xF0` for ASCII, `0xF1` for an invalid byte, otherwise the
index of the accept range times 16 plus the size of the sequence). -/
def utf8First (c : Nat) : Nat :=
  if c < 0x80 then 0xF0
  else if c < 0xC2 then 0xF1
  else if c < 0xE0 then 0x02
  else if c = 0xE0 then 0x13
  else if c < 0xED then 0x03
  else if c = 0xED then 0x23
  else if c < 0xF0 then 0x03
  else if c = 0xF0 then 0x34
  else if c < 0xF4 then 0x04
  else if c = 0xF4 then 0x44
  else 0xF1

/-- The table `acceptRanges` of Go's `unicode/utf8`: the bounds `lo`, `hi` for the
second byte of a sequence. -/
def utf8AcceptRange (i : Nat) : Nat × Nat :=
  if i = 0 then (0x80, 0xBF)
  else if i = 1 then (0xA0, 0xBF)
  else if i = 2 then (0x80, 0x9F)
  else if i = 3 then (0x90, 0xBF)
  else if i = 4 then (0x80, 0x8F)
  else (0, 0)

/-- Size of the rune that Go decodes at offset `i` of `s`, for `i < len(s)`: the
body of the loop of `utf8.RuneCountInString`.  An invalid or short sequence
counts as one rune of one byte. -/
def utf8RuneSize (s : List Nat) (i : Nat) : Nat :=
  let c := byteAt s i
  if c < 0x80 then 1
  else
    let x := utf8First c
    if x = 0xF1 then 1
    else
      let size := x % 8
      if i + size > s.length then 1
      else
        let accept := utf8AcceptRange (x / 16)
        if byteAt s (i + 1) < accept.1 ∨ accept.2 < byteAt s (i + 1) then 1
        else if size = 2 then size
        else if byteAt s (i + 2) < 0x80 ∨ 0xBF < byteAt s (i + 2) then 1
        else if size = 3 then size
        else if byteAt s (i + 3) < 0x80 ∨ 0xBF < byteAt s (i + 3) then 1
        else size

/-- The loop of Go's `utf8.RuneCountInString`. -/
def utf8RuneCountLoop (s : List Nat) : Nat → Nat → Nat → Nat
  | 0, _, n => n
  | fuel + 1, i, n =>
    if i < s.length then utf8RuneCountLoop s fuel (i + utf8RuneSize s i) (n + 1) else n

/-- Go's `utf8.RuneCountInString(s)`. -/
def utf8RuneCountInString (s : List Nat) : Nat := utf8RuneCountLoop s s.length 0 0

/-! ## Line-splice utility (`cscan.go`, lines 106-169) -/

/-- `skipNewline(input, pos)`. -/
def skipNewline (input : List Nat) (pos : Nat) : Nat :=
  if pos ≥ input.length then input.length
  else if byteAt input pos = bCR then
    if pos + 1 ≥ input.length ∨ byteAt input (pos + 1) ≠ bLF then pos + 1 else pos + 2
  else if byteAt input pos = bLF then
    if pos + 1 ≥ input.length ∨ byteAt input (pos + 1) ≠ bCR then pos + 1 else pos + 2
  else pos

/-- The `for` loop of `skipLineCont`, started at `pp`. -/
def skipLineContLoop (input : List Nat) (pos : Nat) : Nat → Nat → Nat
  | 0, _ => pos
  | fuel + 1, pp =>
    if pp ≥ input.length then pos
    else if byteAt input pp = bSpace ∨ byteAt input pp = bTab ∨ byteAt input pp = bVTab then
      skipLineContLoop input pos fuel (pp + 1)
    else if byteAt input pp = bCR ∨ byteAt input pp = bLF then skipNewline input pp
    else pos

/-- `skipLineCont(input, pos)`. -/
def skipLineCont (input : List Nat) (pos : Nat) : Nat :=
  if pos ≥ input.length then input.length
  else if byteAt input pos ≠ bBackslash then pos
  else skipLineContLoop input pos (input.length - (pos + 1)) (pos + 1)

/-- The `for` loop of `nextLineContOrEnd`. -/
def nextLineContOrEndLoop (input : List Nat) : Nat → Nat → Nat
  | 0, _ => input.length
  | fuel + 1, pos =>
    if pos ≥ input.length then input.length
    else if byteAt input pos = bBackslash ∧ skipLineCont input pos ≠ pos then pos
    else nextLineContOrEndLoop input fuel (pos + 1)

/-- `nextLineContOrEnd(input, pos)`. -/
def nextLineContOrEnd (input : List Nat) (pos : Nat) : Nat :=
  nextLineContOrEndLoop input (input.length - pos) pos

/-- The `for` loop of `removeLineCont`: `chunks` is the slice built so far. -/
def removeLineContLoop (input : List Nat) : Nat → Nat → List (List Nat) → List (List Nat)
  | 0, _, chunks => chunks
  | fuel + 1, pos, chunks =>
    if pos = input.length then chunks
    else
      let e := nextLineContOrEnd input pos
      removeLineContLoop input fuel (skipLineCont input e) (chunks ++ [slice input pos e])

/-- `removeLineCont(input)`. -/
def removeLineCont (input : List Nat) : List Nat :=
  stringsJoin (removeLineContLoop input input.length 0 [])

/-- `countNewlines`'s `for` loop, carrying `count` and `newline`. -/
def countNewlinesLoop (input : List Nat) : Nat → Nat → Nat → List Nat → Nat × List Nat
  | 0, _, count, newline => (count, newline)
  | fuel + 1, pos, count, newline =>
    if pos < input.length then
      if byteAt input pos = bCR ∨ byteAt input pos = bLF then
        let next := skipNewline input pos
        countNewlinesLoop input fuel next (count + 1) (slice input pos next)
      else countNewlinesLoop input fuel (pos + 1) count newline
    else (count, newline)

/-- `countNewlines(input)`. -/
def countNewlines (input : List Nat) : Nat × List Nat :=
  countNewlinesLoop input input.length 0 0 []

/-! ## Errors and the scanner (`cscan.go`, lines 30-104) -/

/-- `lineNum`, an `int`. -/
abbrev lineNum := Nat

/-- The struct `Error`. -/
structure Error where
  input : List Nat
  pos : Nat
  line : lineNum
  msg : String
  deriving DecidableEq, Repr

/-- `Error.quoteInput()`: the physical line of the error and the offset of the
error in it; `none` if a slice is out of range. -/
def Error.quoteInput (err : Error) : Option (List Nat × Nat) :=
  match slice? err.input 0 err.pos with
  | none => none
  | some before =>
    let pos := (1 + stringsLastIndexAny before [bCR, bLF]).toNat
    match slice? err.input pos err.input.length with
    | none => none
    | some quote =>
      let endPos := stringsIndexAny quote [bCR, bLF]
      if endPos ≠ -1 then
        match slice? quote 0 endPos.toNat with
        | none => none
        | some q => some (q, err.pos - pos)
      else some (quote, err.pos - pos)

/-- `Error.column()`; `none` if a slice is out of range. -/
def Error.column (err : Error) : Option Nat :=
  match err.quoteInput with
  | none => none
  | some (quote, rel) =>
    match slice? quote 0 rel with
    | none => none
    | some q => some (1 + utf8RuneCountInString q)

/-- The struct `Scanner`.  `errCallback` tells whether the callback is non-nil;
the calls made to it are the `Error`s that the functions below return in a
list, in the order of the calls. -/
structure Scanner where
  input : List Nat
  pos : Nat
  softEnd : Nat
  line : lineNum
  prevSoftEnd : Nat
  errCallback : Bool
  deriving DecidableEq, Repr

/-- `NewScanner(input, fn)`; `fn` tells whether the callback is non-nil. -/
def NewScanner (input : List Nat) (fn : Bool) : Scanner :=
  { input := input, pos := 0, softEnd := nextLineContOrEnd input 0, line := 1,
    prevSoftEnd := 0, errCallback := fn }

/-- `Scanner.reportError(msg, pos, line)`: the errors passed to the callback. -/
def Scanner.reportError (s : Scanner) (msg : String) (pos : Nat) (line : lineNum) :
    List Error :=
  if s.errCallback = false then []
  else [{ input := s.input, line := line, pos := pos, msg := msg }]

/-- The constant `errExpectedFilename`. -/
def errExpectedFilename : String := "expected \"FILENAME\" or <FILENAME>"

/-- The constant `errEmptyFilename`. -/
def errEmptyFilename : String := "empty filename"

/-! ## Tokens and the token window (`cscan.go`, lines 187-284) -/

/-- `tokenKind`, an `int`. -/
abbrev tokenKind := Nat

/-- The constant `tokUnspec`. -/
abbrev tokUnspec : tokenKind := 0
/-- The constant `tokIdentifier`. -/
abbrev tokIdentifier : tokenKind := 1
/-- The constant `tokHash`. -/
abbrev tokHash : tokenKind := 2
/-- The constant `tokInclude`. -/
abbrev tokInclude : tokenKind := 3
/-- The constant `tokIncludeNext`. -/
abbrev tokIncludeNext : tokenKind := 4
/-- The constant `tokQString`. -/
abbrev tokQString : tokenKind := 5
/-- The constant `tokAString`. -/
abbrev tokAString : tokenKind := 6
/-- The constant `tokUnterminatedQString`. -/
abbrev tokUnterminatedQString : tokenKind := 7
/-- The constant `tokUnterminatedAString`. -/
abbrev tokUnterminatedAString : tokenKind := 8

/-- `IncludeKind`, an `int`. -/
abbrev IncludeKind := Nat

/-- The constant `IncludeAngled = IncludeKind(tokAString)`. -/
abbrev IncludeAngled : IncludeKind := tokAString
/-- The constant `IncludeQuoted = IncludeKind(tokQString)`. -/
abbrev IncludeQuoted : IncludeKind := tokQString
/-- The constant `IncludeMacro = IncludeKind(tokIdentifier)`. -/
abbrev IncludeMacro : IncludeKind := tokIdentifier

/-- The struct `IncludeDirective`. -/
structure IncludeDirective where
  Path : List Nat
  Kind : IncludeKind
  IncludeNext : Bool
  Line : Nat
  Pos : Nat
  End : Nat
  NlPad : List Nat
  deriving DecidableEq, Repr

/-- The struct `token`; the field `end` is named `end_` here. -/
structure token where
  kind : tokenKind
  pos : Nat
  end_ : Nat
  line : lineNum
  prevSoftEnd : Nat
  deriving DecidableEq, Repr

/-- `token.string(s)`: `none` if the slice `s.input[t.pos:t.end]` is out of range. -/
def token.string (t : token) (s : Scanner) : Option (List Nat) :=
  match slice? s.input t.pos t.end_ with
  | none => none
  | some tok => if t.pos ≤ t.prevSoftEnd then some (removeLineCont tok) else some tok

/-- `token.endLine(s)`: `none` if the slice `s.input[t.pos:t.end]` is out of range. -/
def token.endLine (t : token) (s : Scanner) : Option lineNum :=
  match slice? s.input t.pos t.end_ with
  | none => none
  | some tok => some (t.line + (countNewlines tok).1)

/-- The struct `tokenBag`: `tokens` is the array `[4]token`. -/
structure tokenBag where
  count : Nat
  tokens : Fin 4 → token

/-- `tokenBag.reset()`. -/
def tokenBag.reset (tbag : tokenBag) : tokenBag :=
  { tbag with count := 0 }

/-- `tokenBag.push(k, pos, end, line, s)`. -/
def tokenBag.push (tbag : tokenBag) (k : tokenKind) (pos end_ : Nat) (line : lineNum)
    (s : Scanner) : tokenBag :=
  { count := tbag.count + 1,
    tokens :=
      if tbag.count < 4 then
        fun i =>
          if i.val = tbag.count then
            { kind := k, pos := pos, end_ := end_, line := line, prevSoftEnd := s.prevSoftEnd }
          else tbag.tokens i
      else tbag.tokens }

/-- `tokenBag.isIncludeDirective()`. -/
def tokenBag.isIncludeDirective (tbag : tokenBag) : Bool :=
  if tbag.count ≥ 2 ∧ (tbag.tokens 0).kind = tokHash then
    decide ((tbag.tokens 1).kind = tokInclude ∨ (tbag.tokens 1).kind = tokIncludeNext)
  else false

/-- The `switch argTok.kind` of `handleIncludeDirective`, applied to the token's
kind and text.  The result is `none` if a slice of `path` is out of range,
`some none` in the `default` case and otherwise the new values of `argTok.kind`
and `path`. -/
def resolveArg (kind : tokenKind) (path : List Nat) : Option (Option (tokenKind × List Nat)) :=
  if kind = tokIdentifier then some (some (kind, path))
  else if kind = tokQString ∨ kind = tokAString then
    match slice? path 1 (path.length - 1) with
    | none => none
    | some p => some (some (kind, p))
  else if kind = tokUnterminatedQString then
    match slice? path 1 path.length with
    | none => none
    | some p => some (some (tokQString, p))
  else if kind = tokUnterminatedAString then
    match slice? path 1 path.length with
    | none => none
    | some p => some (some (tokAString, p))
  else some none

/-- `tokenBag.handleIncludeDirective(endPos, s)`.  The result is `none` if a slice
expression panics; otherwise it is the directive returned (`none` for `nil`)
and the errors reported on the way. -/
def tokenBag.handleIncludeDirective (tbag : tokenBag) (endPos : Nat) (s : Scanner) :
    Option (Option IncludeDirective × List Error) :=
  if tbag.isIncludeDirective = false then some (none, [])
  else
    let hashTok := tbag.tokens 0
    let includeTok := tbag.tokens 1
    if tbag.count = 2 then
      match includeTok.endLine s with
      | none => none
      | some l => some (none, s.reportError errExpectedFilename includeTok.end_ l)
    else
      let argTok := tbag.tokens 2
      match argTok.string s with
      | none => none
      | some text =>
        match resolveArg argTok.kind text with
        | none => none
        | some none => some (none, s.reportError errExpectedFilename argTok.pos argTok.line)
        | some (some (kind, path)) =>
          if path.length = 0 then
            some (none, s.reportError errEmptyFilename argTok.pos argTok.line)
          else
            match slice? s.input hashTok.pos endPos with
            | none => none
            | some span =>
              some (some
                { Path := path, Kind := kind,
                  IncludeNext := decide (includeTok.kind = tokIncludeNext),
                  Line := hashTok.line, Pos := hashTok.pos, End := endPos,
                  NlPad := stringsRepeat (countNewlines span).2 (countNewlines span).1 }, [])

/-! ## Concrete texts and windows for the examples -/

/-- The bytes of an ASCII text. -/
def ascii (text : String) : List Nat := text.toList.map Char.toNat

/-- The zero value of `tokenBag`. -/
def tokenBag.zero : tokenBag :=
  { count := 0, tokens := fun _ => { kind := 0, pos := 0, end_ := 0, line := 0, prevSoftEnd := 0 } }

/-- The window after a `reset` and one `push` for each entry `(kind, pos, end, line)` of
`toks`, all made with the scanner `s`. -/
def windowOf (s : Scanner) (toks : List (tokenKind × Nat × Nat × lineNum)) : tokenBag :=
  toks.foldl (fun tbag t => tbag.push t.1 t.2.1 t.2.2.1 t.2.2.2 s) tokenBag.zero.reset

/-- The scanner for `#include <stdio.h>` LF, with a callback. -/
def scanAngled : Scanner := NewScanner (ascii "#include <stdio.h>\n") true

/-- The scanner for `#include "stdio.h"` LF, with a callback. -/
def scanQuoted : Scanner := NewScanner (ascii "#include \"stdio.h\"\n") true

/-- The scanner for `#include NAME` LF, with a callback. -/
def scanMacro : Scanner := NewScanner (ascii "#include NAME\n") true

/-- The scanner for `#include <stdio.h` LF, with a callback. -/
def scanAngledUnterm : Scanner := NewScanner (ascii "#include <stdio.h\n") true

/-- The scanner for `#include "stdio.h` LF, with a callback. -/
def scanQuotedUnterm : Scanner := NewScanner (ascii "#include \"stdio.h\n") true

/-- The scanner for ` # include ` LF, with a callback. -/
def scanNoFilename : Scanner := NewScanner (ascii " # include \n") true

/-! ## Suffix view of the line-splice utility

The functions above work with offsets into `input`.  The lemmas below describe
them by what lies at the head of the suffix `input.drop pos`. -/

/-- Length of the newline sequence at the head of `l`; `0` if `l` does not
start with `'\r'` or `'\n'`. -/
def nlLen : List Nat → Nat
  | [] => 0
  | c :: r =>
    if c = bCR then (if r.head? = some bLF then 2 else 1)
    else if c = bLF then (if r.head? = some bCR then 2 else 1)
    else 0

/-- Length of a run of horizontal whitespace followed by a newline sequence at
the head of `l`; `0` if `l` does not start that way. -/
def wsNlLen : List Nat → Nat
  | [] => 0
  | c :: r =>
    if c = bSpace ∨ c = bTab ∨ c = bVTab then (if wsNlLen r = 0 then 0 else wsNlLen r + 1)
    else nlLen (c :: r)

/-- Length of the line continuation at the head of `l`; `0` if there is none. -/
def contLen : List Nat → Nat
  | [] => 0
  | c :: r => if c = bBackslash then (if wsNlLen r = 0 then 0 else wsNlLen r + 1) else 0

/-- Number of bytes of `l` before its first line continuation. -/
def distCont : List Nat → Nat
  | [] => 0
  | c :: r => if contLen (c :: r) ≠ 0 then 0 else distCont r + 1

/-- Byte-wise description of `removeLineCont`: walk the text once from left to
right and leave out every line continuation met on the way. -/
def strip (l : List Nat) : List Nat :=
  match l with
  | [] => []
  | c :: r =>
    if contLen (c :: r) ≠ 0 then strip ((c :: r).drop (contLen (c :: r)))
    else c :: strip r
termination_by l.length
decreasing_by
  all_goals simp_wf
  all_goals omega

/-- Suffix view of `countNewlines`: count the newline sequences of `l`, starting
from `count` and `newline`. -/
def countNl (l : List Nat) (count : Nat) (newline : List Nat) : Nat × List Nat :=
  match l with
  | [] => (count, newline)
  | c :: r =>
    if c = bCR ∨ c = bLF then
      countNl ((c :: r).drop (nlLen (c :: r))) (count + 1) ((c :: r).take (nlLen (c :: r)))
    else countNl r count newline
termination_by l.length
decreasing_by
  all_goals simp_wf
  · have h : 0 < nlLen (c :: r) := by
      simp only [nlLen]
      split_ifs <;> omega
    omega

/-- The text after `t0` in the input of C6: each newline followed by its text. -/
def nlSegments (segs : List (List Nat × List Nat)) : List Nat :=
  match segs with
  | [] => []
  | p :: rest => p.1 ++ (p.2 ++ nlSegments rest)

/-- The newline of the last segment, or `newline` if there is no segment. -/
def lastNewline (segs : List (List Nat × List Nat)) (newline : List Nat) : List Nat :=
  match segs with
  | [] => newline
  | p :: rest => lastNewline rest p.1

/-- The scanner for ` # include 's'` LF, with a callback. -/
def scanCharLit : Scanner := NewScanner (ascii " # include 's'\n") true

/-- The scanner for ` # include <>` LF, with a callback. -/
def scanEmptyAngled : Scanner := NewScanner (ascii " # include <>\n") true

/-- The scanner for ` # include <` LF, with a callback. -/
def scanEmptyAngledUnterm : Scanner := NewScanner (ascii " # include <\n") true

/-- The scanner for ` # include "` LF, with a callback. -/
def scanEmptyQuotedUnterm : Scanner := NewScanner (ascii " # include \"\n") true

/-- The arguments of one call `tbag.push(k, pos, end, line, s)`. -/
structure PushCall where
  k : tokenKind
  pos : Nat
  end_ : Nat
  line : lineNum
  s : Scanner

/-- The token made of the arguments of a call of `push`: its kind, span and line
and the `prevSoftEnd` of the scanner at the time of the call. -/
def PushCall.token (c : PushCall) : token :=
  { kind := c.k, pos := c.pos, end_ := c.end_, line := c.line, prevSoftEnd := c.s.prevSoftEnd }

/-- The window after the calls `calls` of `push`, made in this order. -/
def tokenBag.pushAll (tbag : tokenBag) (calls : List PushCall) : tokenBag :=
  calls.foldl (fun w c => w.push c.k c.pos c.end_ c.line c.s) tbag

/-- The scanner for `#include <a> b c` LF, with a callback. -/
def scanExtra : Scanner := NewScanner (ascii "#include <a> b c\n") true

/-- The calls of `push` for the five tokens `#`, `include`, `<a>`, `b`, `c` of the
line `#include <a> b c`. -/
def callsExtra : List PushCall :=
  [⟨tokHash, 0, 1, 1, scanExtra⟩, ⟨tokInclude, 1, 8, 1, scanExtra⟩,
   ⟨tokAString, 9, 12, 1, scanExtra⟩, ⟨tokIdentifier, 13, 14, 1, scanExtra⟩,
   ⟨tokIdentifier, 15, 16, 1, scanExtra⟩]

/-- The scanner for `#include_next <stdio.h>` LF, with a callback. -/
def scanAngledNext : Scanner := NewScanner (ascii "#include_next <stdio.h>\n") true

/-- The scanner for `#in\` LF `clude <std\` LF `io.h>` LF, with a callback. -/
def scanLineCont : Scanner := NewScanner (ascii "#in\\\nclude <std\\\nio.h>\n") true

/-- `Error.Quote()`; `none` if a slice is out of range. -/
def Error.Quote (err : Error) : Option (List Nat) :=
  match err.quoteInput with
  | none => none
  | some (quote, rel) =>
    match slice? quote 0 rel with
    | none => none
    | some q =>
      some (quote ++ [bLF] ++ stringsRepeat [bSpace] (utf8RuneCountInString q) ++ [94])

/-- The code points that have a UTF-8 encoding: the Unicode scalar values. -/
def isScalar (r : Nat) : Prop := r < 0xD800 ∨ (0xE000 ≤ r ∧ r < 0x110000)

/-- The UTF-8 encoding of the code point `r` (RFC 3629). -/
def utf8EncodeRune (r : Nat) : List Nat :=
  if r < 0x80 then [r]
  else if r < 0x800 then [0xC0 + r / 64, 0x80 + r % 64]
  else if r < 0x10000 then [0xE0 + r / 4096, 0x80 + r / 64 % 64, 0x80 + r % 64]
  else [0xF0 + r / 262144, 0x80 + r / 4096 % 64, 0x80 + r / 64 % 64, 0x80 + r % 64]

/-- The UTF-8 encoding of a sequence of code points. -/
def utf8Encode : List Nat → List Nat
  | [] => []
  | r :: rs => utf8EncodeRune r ++ utf8Encode rs

/-- The error of the test `angled_unterm`: in `#include <stdio.h` LF, at offset 9, just
after `#include `. -/
def errUntermAngled : Error :=
  { input := ascii "#include <stdio.h\n", pos := 9, line := 1,
    msg := "missing terminating '>' character" }

/-- An error at offset 6 of the two lines `aé` LF `éb` LF, just after the `é` of line 2
(`é` is the two bytes 195, 169). -/
def errAccent : Error :=
  { input := [97, 195, 169, 10, 195, 169, 98, 10], pos := 6, line := 2, msg := "" }

/-! ## Lemmas on the suffix view -/

theorem drop_eq_byteAt_cons {input : List Nat} {pos : Nat} (h : pos < input.length) :
    input.drop pos = byteAt input pos :: input.drop (pos + 1) := by
  rw [List.drop_eq_getElem_cons h, byteAt, List.getD_eq_getElem _ _ h]

theorem nlLen_le (l : List Nat) : nlLen l ≤ l.length := by
  cases l with
  | nil => simp [nlLen]
  | cons c r =>
    cases r with
    | nil => simp [nlLen]; split_ifs <;> omega
    | cons d r => simp [nlLen]; split_ifs <;> omega

theorem nlLen_pos {c : Nat} (r : List Nat) (h : c = bCR ∨ c = bLF) : 0 < nlLen (c :: r) := by
  simp only [nlLen]; split_ifs <;> omega

theorem nlLen_eq_zero {c : Nat} (r : List Nat) (h1 : c ≠ bCR) (h2 : c ≠ bLF) :
    nlLen (c :: r) = 0 := by
  simp [nlLen, h1, h2]

theorem skipNewline_eq (input : List Nat) (pos : Nat) (h : pos ≤ input.length) :
    skipNewline input pos = pos + nlLen (input.drop pos) := by
  rcases Nat.lt_or_ge pos input.length with hlt | hge
  · rw [drop_eq_byteAt_cons hlt]
    have h0 : ¬ pos ≥ input.length := by omega
    simp only [skipNewline, nlLen, h0, if_false]
    rcases Nat.lt_or_ge (pos + 1) input.length with h1 | h1
    · have h1n : ¬ pos + 1 ≥ input.length := by omega
      rw [drop_eq_byteAt_cons h1]
      simp only [List.head?_cons, Option.some.injEq, h1n, false_or]
      split_ifs <;> simp_all
    · rw [List.drop_eq_nil_of_le h1]
      simp only [List.head?_nil, h1, true_or, if_true]
      split_ifs <;> simp_all
  · have : pos = input.length := by omega
    subst this
    simp [skipNewline, nlLen]

theorem wsNlLen_le (l : List Nat) : wsNlLen l ≤ l.length := by
  induction l with
  | nil => simp [wsNlLen]
  | cons c r ih =>
    have h := nlLen_le (c :: r)
    simp only [wsNlLen, List.length_cons] at *
    split_ifs <;> omega

theorem contLen_le (l : List Nat) : contLen l ≤ l.length := by
  cases l with
  | nil => simp [contLen]
  | cons c r =>
    have h := wsNlLen_le r
    simp only [contLen, List.length_cons]
    split_ifs <;> omega

theorem skipLineContLoop_eq (input : List Nat) (pos : Nat) :
    ∀ (fuel pp : Nat), pp ≤ input.length → input.length - pp ≤ fuel →
      skipLineContLoop input pos fuel pp =
        if wsNlLen (input.drop pp) = 0 then pos else pp + wsNlLen (input.drop pp) := by
  intro fuel
  induction fuel with
  | zero =>
    intro pp h1 h2
    have : pp = input.length := by omega
    subst this
    simp [skipLineContLoop, wsNlLen]
  | succ fuel ih =>
    intro pp h1 h2
    rcases Nat.lt_or_ge pp input.length with hlt | hge
    · have h0 : ¬ pp ≥ input.length := by omega
      have hd := drop_eq_byteAt_cons hlt
      simp only [skipLineContLoop, h0, if_false]
      by_cases hws : byteAt input pp = bSpace ∨ byteAt input pp = bTab ∨ byteAt input pp = bVTab
      · rw [if_pos hws, ih (pp + 1) (by omega) (by omega), hd]
        simp only [wsNlLen, if_pos hws]
        by_cases hz : wsNlLen (input.drop (pp + 1)) = 0
        · simp [hz]
        · simp only [if_neg hz, if_neg (Nat.succ_ne_zero _)]
          omega
      · rw [if_neg hws]
        by_cases hnl : byteAt input pp = bCR ∨ byteAt input pp = bLF
        · rw [if_pos hnl, skipNewline_eq input pp h1, hd]
          have hp := nlLen_pos (input.drop (pp + 1)) hnl
          simp only [wsNlLen, if_neg hws]
          rw [if_neg (by omega)]
        · rw [if_neg hnl, hd]
          have hz := nlLen_eq_zero (input.drop (pp + 1)) (fun h => hnl (Or.inl h))
            (fun h => hnl (Or.inr h))
          simp only [wsNlLen, if_neg hws, hz, if_true]
    · have : pp = input.length := by omega
      subst this
      simp [skipLineContLoop, wsNlLen]

theorem skipLineCont_eq (input : List Nat) (pos : Nat) (h : pos ≤ input.length) :
    skipLineCont input pos = pos + contLen (input.drop pos) := by
  rcases Nat.lt_or_ge pos input.length with hlt | hge
  · have h0 : ¬ pos ≥ input.length := by omega
    have hd := drop_eq_byteAt_cons hlt
    simp only [skipLineCont, h0, if_false]
    by_cases hb : byteAt input pos = bBackslash
    · rw [if_neg (not_not.mpr hb), skipLineContLoop_eq input pos _ _ (by omega) (le_refl _), hd]
      simp only [contLen, if_pos hb]
      by_cases hz : wsNlLen (input.drop (pos + 1)) = 0
      · simp [hz]
      · simp only [if_neg hz]
        omega
    · rw [if_pos hb, hd]
      simp [contLen, hb]
  · have : pos = input.length := by omega
    subst this
    simp [skipLineCont, contLen]

theorem contLen_ne_zero_head {c : Nat} {r : List Nat} (h : contLen (c :: r) ≠ 0) :
    c = bBackslash := by
  by_contra hc
  simp [contLen, hc] at h

theorem nextLineContOrEndLoop_eq (input : List Nat) :
    ∀ (fuel pos : Nat), pos ≤ input.length → input.length - pos ≤ fuel →
      nextLineContOrEndLoop input fuel pos = pos + distCont (input.drop pos) := by
  intro fuel
  induction fuel with
  | zero =>
    intro pos h1 h2
    have : pos = input.length := by omega
    subst this
    simp [nextLineContOrEndLoop, distCont]
  | succ fuel ih =>
    intro pos h1 h2
    rcases Nat.lt_or_ge pos input.length with hlt | hge
    · have h0 : ¬ pos ≥ input.length := by omega
      have hd := drop_eq_byteAt_cons hlt
      have hs := skipLineCont_eq input pos h1
      simp only [nextLineContOrEndLoop, h0, if_false]
      by_cases hc : contLen (input.drop pos) ≠ 0
      · have hb : byteAt input pos = bBackslash := by
          rw [hd] at hc; exact contLen_ne_zero_head hc
        rw [if_pos ⟨hb, by omega⟩]
        rw [hd] at hc ⊢
        simp [distCont, hc]
      · rw [if_neg (by intro hh; apply hc; omega), ih (pos + 1) (by omega) (by omega)]
        rw [hd] at hc ⊢
        simp only [distCont, if_neg hc]
        omega
    · have : pos = input.length := by omega
      subst this
      simp [nextLineContOrEndLoop, distCont]

theorem nextLineContOrEnd_eq (input : List Nat) (pos : Nat) (h : pos ≤ input.length) :
    nextLineContOrEnd input pos = pos + distCont (input.drop pos) :=
  nextLineContOrEndLoop_eq input _ pos h (le_refl _)

theorem distCont_le (l : List Nat) : distCont l ≤ l.length := by
  induction l with
  | nil => simp [distCont]
  | cons c r ih =>
    simp only [distCont, List.length_cons]
    split_ifs <;> omega

theorem strip_nil : strip [] = [] := by
  rw [strip]

theorem strip_cons_cont {c : Nat} {r : List Nat} (h : contLen (c :: r) ≠ 0) :
    strip (c :: r) = strip ((c :: r).drop (contLen (c :: r))) := by
  rw [strip, if_pos h]

theorem strip_cons_keep {c : Nat} {r : List Nat} (h : contLen (c :: r) = 0) :
    strip (c :: r) = c :: strip r := by
  rw [strip, if_neg (not_not.mpr h)]

theorem strip_chunk (l : List Nat) :
    strip l = l.take (distCont l) ++
      strip (l.drop (distCont l + contLen (l.drop (distCont l)))) := by
  induction l with
  | nil => simp [distCont, contLen, strip_nil]
  | cons c r ih =>
    by_cases h : contLen (c :: r) ≠ 0
    · have hd : distCont (c :: r) = 0 := by simp [distCont, h]
      rw [hd, strip_cons_cont h]
      simp
    · have hd : distCont (c :: r) = distCont r + 1 := by simp only [distCont, if_neg h]
      rw [hd, strip_cons_keep (not_not.mp h)]
      have e1 : distCont r + 1 + contLen (List.drop (distCont r + 1) (c :: r)) =
          (distCont r + contLen (List.drop (distCont r) r)) + 1 := by
        simp only [List.drop_succ_cons]; omega
      rw [e1, List.drop_succ_cons, List.take_succ_cons, List.cons_append, ← ih]

theorem stringsJoin_append_singleton (chunks : List (List Nat)) (x : List Nat) :
    stringsJoin (chunks ++ [x]) = stringsJoin chunks ++ x := by
  induction chunks with
  | nil => simp [stringsJoin]
  | cons a t ih =>
    simp only [stringsJoin, List.cons_append, List.foldr_cons, List.append_assoc] at *
    rw [ih]

theorem removeLineContLoop_eq (input : List Nat) :
    ∀ (fuel pos : Nat) (chunks : List (List Nat)), pos ≤ input.length →
      input.length - pos ≤ fuel →
      stringsJoin (removeLineContLoop input fuel pos chunks) =
        stringsJoin chunks ++ strip (input.drop pos) := by
  intro fuel
  induction fuel with
  | zero =>
    intro pos chunks h1 h2
    have : pos = input.length := by omega
    subst this
    simp [removeLineContLoop, strip_nil]
  | succ fuel ih =>
    intro pos chunks h1 h2
    by_cases he : pos = input.length
    · subst he
      simp [removeLineContLoop, strip_nil]
    · have hlt : pos < input.length := by omega
      have hd := drop_eq_byteAt_cons hlt
      have hdl : (input.drop pos).length = input.length - pos := List.length_drop _ _
      have hdist := distCont_le (input.drop pos)
      have hn := nextLineContOrEnd_eq input pos h1
      have hs := skipLineCont_eq input (pos + distCont (input.drop pos)) (by omega)
      have hcl := contLen_le (input.drop (pos + distCont (input.drop pos)))
      have hcll : (input.drop (pos + distCont (input.drop pos))).length =
          input.length - (pos + distCont (input.drop pos)) := List.length_drop _ _
      have hprog : 0 < distCont (input.drop pos) +
          contLen (input.drop (pos + distCont (input.drop pos))) := by
        by_cases hz : distCont (input.drop pos) = 0
        · have hc : contLen (input.drop pos) ≠ 0 := by
            intro hc
            rw [hd] at hz hc
            simp [distCont, hc] at hz
          rw [hz]
          simp only [Nat.add_zero, Nat.zero_add]
          omega
        · omega
      simp only [removeLineContLoop, if_neg he]
      rw [hn, hs, ih _ _ (by omega) (by omega), stringsJoin_append_singleton,
        strip_chunk (input.drop pos), List.append_assoc]
      congr 2
      · simp [slice]
      · simp only [List.drop_drop]
        rw [Nat.add_assoc]

theorem removeLineCont_eq_strip (input : List Nat) : removeLineCont input = strip input := by
  have h := removeLineContLoop_eq input input.length 0 [] (Nat.zero_le _) (by omega)
  simpa [removeLineCont, stringsJoin] using h

theorem wsNlLen_append (ws : List Nat) (c : Nat) (rest : List Nat)
    (hws : ∀ b ∈ ws, b = bSpace ∨ b = bTab ∨ b = bVTab) (hc : c = bCR ∨ c = bLF) :
    wsNlLen (ws ++ c :: rest) = ws.length + nlLen (c :: rest) := by
  induction ws with
  | nil =>
    have hn : ¬ (c = bSpace ∨ c = bTab ∨ c = bVTab) := by
      simp only [bCR, bLF, bSpace, bTab, bVTab] at *
      omega
    simp only [List.nil_append, wsNlLen, if_neg hn, List.length_nil, Nat.zero_add]
  | cons b t ih =>
    have hb := hws b (List.mem_cons_self _ _)
    have ht := ih (fun x hx => hws x (List.mem_cons_of_mem _ hx))
    have hp := nlLen_pos rest hc
    rw [List.cons_append, wsNlLen, if_pos hb, ht, if_neg (by omega), List.length_cons]
    omega

theorem wsNlLen_ne_zero {l : List Nat} (h : wsNlLen l ≠ 0) :
    ∃ ws c rest, l = ws ++ c :: rest ∧ (∀ b ∈ ws, b = bSpace ∨ b = bTab ∨ b = bVTab) ∧
      (c = bCR ∨ c = bLF) := by
  induction l with
  | nil => simp [wsNlLen] at h
  | cons b t ih =>
    by_cases hb : b = bSpace ∨ b = bTab ∨ b = bVTab
    · simp only [wsNlLen, if_pos hb] at h
      have ht : wsNlLen t ≠ 0 := by
        intro hz
        simp [hz] at h
      obtain ⟨ws, c, rest, e, hws, hc⟩ := ih ht
      refine ⟨b :: ws, c, rest, by simp [e], ?_, hc⟩
      intro x hx
      rcases List.mem_cons.mp hx with hx | hx
      · rw [hx]; exact hb
      · exact hws x hx
    · simp only [wsNlLen, if_neg hb] at h
      refine ⟨[], b, t, rfl, by simp, ?_⟩
      by_contra hc
      exact h (nlLen_eq_zero t (fun e => hc (Or.inl e)) (fun e => hc (Or.inr e)))

theorem contLen_cont (ws : List Nat) (c : Nat) (rest : List Nat)
    (hws : ∀ b ∈ ws, b = bSpace ∨ b = bTab ∨ b = bVTab) (hc : c = bCR ∨ c = bLF) :
    contLen (bBackslash :: (ws ++ c :: rest)) = 1 + ws.length + nlLen (c :: rest) := by
  have hp := nlLen_pos rest hc
  simp only [contLen, if_true, wsNlLen_append ws c rest hws hc]
  rw [if_neg (by omega)]
  omega

theorem contLen_ne_zero {l : List Nat} (h : contLen l ≠ 0) :
    ∃ ws c rest, l = bBackslash :: (ws ++ c :: rest) ∧
      (∀ b ∈ ws, b = bSpace ∨ b = bTab ∨ b = bVTab) ∧ (c = bCR ∨ c = bLF) := by
  cases l with
  | nil => simp [contLen] at h
  | cons b t =>
    have hb := contLen_ne_zero_head h
    subst hb
    have ht : wsNlLen t ≠ 0 := by
      intro hz
      simp [contLen, hz] at h
    obtain ⟨ws, c, rest, e, hws, hc⟩ := wsNlLen_ne_zero ht
    exact ⟨ws, c, rest, by rw [e], hws, hc⟩

theorem distCont_lt {l : List Nat} (h : distCont l < l.length) :
    contLen (l.drop (distCont l)) ≠ 0 := by
  induction l with
  | nil => simp at h
  | cons c r ih =>
    by_cases hc : contLen (c :: r) ≠ 0
    · simp [distCont, hc]
    · simp only [distCont, if_neg hc, List.length_cons, List.drop_succ_cons] at h ⊢
      exact ih (by omega)

theorem strip_length_le :
    ∀ (n : Nat) (l : List Nat), l.length ≤ n → (strip l).length ≤ l.length := by
  intro n
  induction n with
  | zero =>
    intro l hl
    have : l = [] := List.length_eq_zero.mp (by omega)
    subst this
    simp [strip_nil]
  | succ n ih =>
    intro l hl
    cases l with
    | nil => simp [strip_nil]
    | cons c r =>
      by_cases hc : contLen (c :: r) ≠ 0
      · rw [strip_cons_cont hc]
        have h1 : ((c :: r).drop (contLen (c :: r))).length = (c :: r).length - contLen (c :: r) :=
          List.length_drop _ _
        have h2 := ih ((c :: r).drop (contLen (c :: r))) (by
          simp only [List.length_cons] at hl h1 ⊢; omega)
        omega
      · rw [strip_cons_keep (not_not.mp hc)]
        have h2 := ih r (by simp only [List.length_cons] at hl; omega)
        simp only [List.length_cons]
        omega

theorem strip_length_lt {l : List Nat} (h : distCont l < l.length) :
    (strip l).length < l.length := by
  have hc := distCont_lt h
  have hk := contLen_le (l.drop (distCont l))
  have hkl : (l.drop (distCont l)).length = l.length - distCont l := List.length_drop _ _
  have hl := strip_length_le _ (l.drop (distCont l + contLen (l.drop (distCont l)))) (le_refl _)
  have hll : (l.drop (distCont l + contLen (l.drop (distCont l)))).length =
      l.length - (distCont l + contLen (l.drop (distCont l))) := List.length_drop _ _
  rw [strip_chunk l, List.length_append, List.length_take]
  omega

theorem strip_of_distCont_eq {l : List Nat} (h : distCont l = l.length) : strip l = l := by
  rw [strip_chunk l, h]
  simp [contLen, strip_nil]

theorem distCont_of_strip_eq {l : List Nat} (h : strip l = l) : distCont l = l.length := by
  by_contra hne
  have hlt : distCont l < l.length := lt_of_le_of_ne (distCont_le l) hne
  have := strip_length_lt hlt
  rw [h] at this
  omega

theorem nextLineContOrEnd_zero (input : List Nat) :
    nextLineContOrEnd input 0 = distCont input := by
  simpa using nextLineContOrEnd_eq input 0 (Nat.zero_le _)

theorem contLen_before_distCont {l : List Nat} {j : Nat} (h : j < distCont l) :
    contLen (l.drop j) = 0 := by
  induction l generalizing j with
  | nil => simp [distCont] at h
  | cons c r ih =>
    by_cases hc : contLen (c :: r) ≠ 0
    · simp [distCont, hc] at h
    · simp only [distCont, if_neg hc] at h
      cases j with
      | zero => simpa using hc
      | succ j => simpa using ih (by omega)

theorem nlLen_append_backslash (x : Nat) (r t : List Nat) :
    nlLen (x :: (r ++ bBackslash :: t)) = nlLen (x :: r) := by
  cases r with
  | nil => simp [nlLen]
  | cons y r => simp [nlLen]

theorem wsNlLen_append_backslash (r t : List Nat) :
    wsNlLen (r ++ bBackslash :: t) = wsNlLen r := by
  induction r with
  | nil => simp [wsNlLen, nlLen]
  | cons x r ih =>
    rw [List.cons_append, wsNlLen, wsNlLen, ih, nlLen_append_backslash]

theorem contLen_append_backslash (c : Nat) (r t : List Nat) :
    contLen (c :: r ++ bBackslash :: t) = contLen (c :: r) := by
  rw [List.cons_append, contLen, contLen, wsNlLen_append_backslash]

theorem strip_append_backslash (t : List Nat) :
    ∀ (n : Nat) (a : List Nat), a.length ≤ n →
      strip (a ++ bBackslash :: t) = strip a ++ strip (bBackslash :: t) := by
  intro n
  induction n with
  | zero =>
    intro a ha
    have : a = [] := List.length_eq_zero.mp (by omega)
    subst this
    simp [strip_nil]
  | succ n ih =>
    intro a ha
    cases a with
    | nil => simp [strip_nil]
    | cons c r =>
      have hk := contLen_le (c :: r)
      have he := contLen_append_backslash c r t
      by_cases hc : contLen (c :: r) ≠ 0
      · have hc2 : contLen (c :: (r ++ bBackslash :: t)) ≠ 0 := by
          rw [← List.cons_append, he]; exact hc
        have hlen : ((c :: r).drop (contLen (c :: r))).length ≤ n := by
          rw [List.length_drop]
          simp only [List.length_cons] at ha hk ⊢
          omega
        rw [List.cons_append, strip_cons_cont hc2, strip_cons_cont hc, ← List.cons_append, he,
          List.drop_append_of_le_length hk, ih _ hlen]
      · have hc2 : contLen (c :: (r ++ bBackslash :: t)) = 0 := by
          rw [← List.cons_append, he]; exact not_not.mp hc
        rw [List.cons_append, strip_cons_keep hc2, strip_cons_keep (not_not.mp hc),
          ih r (by simp only [List.length_cons] at ha; omega), List.cons_append]

theorem nlLen_newline (nl b : List Nat)
    (hnl : nl = [bLF] ∨ nl = [bCR] ∨ nl = [bCR, bLF] ∨ nl = [bLF, bCR])
    (hlf : nl = [bLF] → b.head? ≠ some bCR) (hcr : nl = [bCR] → b.head? ≠ some bLF) :
    ∃ c rest, nl ++ b = c :: rest ∧ (c = bCR ∨ c = bLF) ∧
      nlLen (c :: rest) = nl.length := by
  rcases hnl with h | h | h | h
  · refine ⟨bLF, b, by simp [h], Or.inr rfl, ?_⟩
    simp [nlLen, h, hlf h]
  · refine ⟨bCR, b, by simp [h], Or.inl rfl, ?_⟩
    simp [nlLen, h, hcr h]
  · refine ⟨bCR, bLF :: b, by simp [h], Or.inl rfl, ?_⟩
    simp [nlLen, h]
  · refine ⟨bLF, bCR :: b, by simp [h], Or.inr rfl, ?_⟩
    simp [nlLen, h]

theorem strip_cont (ws nl b : List Nat)
    (hws : ∀ c ∈ ws, c = bSpace ∨ c = bTab ∨ c = bVTab)
    (hnl : nl = [bLF] ∨ nl = [bCR] ∨ nl = [bCR, bLF] ∨ nl = [bLF, bCR])
    (hlf : nl = [bLF] → b.head? ≠ some bCR) (hcr : nl = [bCR] → b.head? ≠ some bLF) :
    strip (bBackslash :: (ws ++ (nl ++ b))) = strip b := by
  obtain ⟨c, rest, e, hc, hl⟩ := nlLen_newline nl b hnl hlf hcr
  have hk := contLen_cont ws c rest hws hc
  rw [hl, ← e] at hk
  have hne : contLen (bBackslash :: (ws ++ (nl ++ b))) ≠ 0 := by omega
  rw [strip_cons_cont hne, hk]
  have hd : List.drop (1 + ws.length + nl.length) (bBackslash :: (ws ++ (nl ++ b))) = b := by
    have : bBackslash :: (ws ++ (nl ++ b)) = ([bBackslash] ++ ws ++ nl) ++ b := by simp
    rw [this]
    have hlen : 1 + ws.length + nl.length = ([bBackslash] ++ ws ++ nl).length := by
      simp only [List.length_append, List.length_singleton]
    rw [hlen, List.drop_left]
  rw [hd]

theorem countNl_nil (count : Nat) (newline : List Nat) :
    countNl [] count newline = (count, newline) := by
  rw [countNl]

theorem countNl_cons_nl {c : Nat} (r : List Nat) (count : Nat) (newline : List Nat)
    (h : c = bCR ∨ c = bLF) :
    countNl (c :: r) count newline =
      countNl ((c :: r).drop (nlLen (c :: r))) (count + 1) ((c :: r).take (nlLen (c :: r))) := by
  rw [countNl, if_pos h]

theorem countNl_cons_other {c : Nat} (r : List Nat) (count : Nat) (newline : List Nat)
    (h : ¬ (c = bCR ∨ c = bLF)) :
    countNl (c :: r) count newline = countNl r count newline := by
  rw [countNl, if_neg h]

theorem countNewlinesLoop_eq (input : List Nat) :
    ∀ (fuel pos count : Nat) (newline : List Nat), pos ≤ input.length →
      input.length - pos ≤ fuel →
      countNewlinesLoop input fuel pos count newline = countNl (input.drop pos) count newline := by
  intro fuel
  induction fuel with
  | zero =>
    intro pos count newline h1 h2
    have : pos = input.length := by omega
    subst this
    simp [countNewlinesLoop, countNl_nil]
  | succ fuel ih =>
    intro pos count newline h1 h2
    rcases Nat.lt_or_ge pos input.length with hlt | hge
    · have hd := drop_eq_byteAt_cons hlt
      simp only [countNewlinesLoop, if_pos hlt]
      by_cases hnl : byteAt input pos = bCR ∨ byteAt input pos = bLF
      · have hs := skipNewline_eq input pos h1
        have hp := nlLen_pos (input.drop (pos + 1)) hnl
        have hle := nlLen_le (input.drop pos)
        have hlen : (input.drop pos).length = input.length - pos := List.length_drop _ _
        rw [← hd] at hp
        rw [if_pos hnl, hs, ih _ _ _ (by omega) (by omega), hd,
          countNl_cons_nl _ _ _ hnl, ← hd, List.drop_drop]
        simp [slice]
      · rw [if_neg hnl, ih _ _ _ (by omega) (by omega), hd, countNl_cons_other _ _ _ hnl]
    · have : pos = input.length := by omega
      subst this
      simp [countNewlinesLoop, countNl_nil]

theorem countNewlines_eq (input : List Nat) : countNewlines input = countNl input 0 [] := by
  simpa [countNewlines] using countNewlinesLoop_eq input input.length 0 0 [] (Nat.zero_le _)
    (by omega)

theorem countNl_skip (t rest : List Nat) (count : Nat) (newline : List Nat)
    (ht : ∀ c ∈ t, c ≠ bCR ∧ c ≠ bLF) :
    countNl (t ++ rest) count newline = countNl rest count newline := by
  induction t with
  | nil => rfl
  | cons c t ih =>
    have hc := ht c (List.mem_cons_self _ _)
    rw [List.cons_append, countNl_cons_other _ _ _ (by tauto)]
    exact ih (fun x hx => ht x (List.mem_cons_of_mem _ hx))

theorem countNl_newline (nl rest : List Nat) (count : Nat) (newline : List Nat)
    (hnl : nl = [bLF] ∨ nl = [bCR] ∨ nl = [bCR, bLF] ∨ nl = [bLF, bCR])
    (hlf : nl = [bLF] → rest.head? ≠ some bCR) (hcr : nl = [bCR] → rest.head? ≠ some bLF) :
    countNl (nl ++ rest) count newline = countNl rest (count + 1) nl := by
  obtain ⟨c, r, e, hc, hl⟩ := nlLen_newline nl rest hnl hlf hcr
  rw [e, countNl_cons_nl _ _ _ hc, hl, ← e, List.drop_left, List.take_left]

theorem lastNewline_eq (segs : List (List Nat × List Nat)) (newline : List Nat) :
    lastNewline segs newline = (segs.getLast?.map Prod.fst).getD newline := by
  induction segs generalizing newline with
  | nil => rfl
  | cons p rest ih =>
    rw [lastNewline, ih]
    cases rest with
    | nil => rfl
    | cons q rest =>
      rw [List.getLast?_cons_cons, List.getLast?_eq_getLast _ (List.cons_ne_nil q rest)]
      rfl

theorem countNl_segments (segs : List (List Nat × List Nat)) :
    ∀ (count : Nat) (newline : List Nat),
      (∀ p ∈ segs, (p.1 = [bLF] ∨ p.1 = [bCR] ∨ p.1 = [bCR, bLF] ∨ p.1 = [bLF, bCR]) ∧
        ∀ c ∈ p.2, c ≠ bCR ∧ c ≠ bLF) →
      (∀ p ∈ segs.dropLast, p.2 ≠ []) →
      countNl (nlSegments segs) count newline =
        (count + segs.length, lastNewline segs newline) := by
  induction segs with
  | nil =>
    intro count newline _ _
    simp [nlSegments, lastNewline, countNl_nil]
  | cons p rest ih =>
    intro count newline hall hne
    have hp := hall p (List.mem_cons_self _ _)
    have hrest : ∀ q ∈ rest,
        (q.1 = [bLF] ∨ q.1 = [bCR] ∨ q.1 = [bCR, bLF] ∨ q.1 = [bLF, bCR]) ∧
        ∀ c ∈ q.2, c ≠ bCR ∧ c ≠ bLF := fun q hq => hall q (List.mem_cons_of_mem _ hq)
    have hne2 : ∀ q ∈ rest.dropLast, q.2 ≠ [] := by
      intro q hq
      cases rest with
      | nil => simp at hq
      | cons r rest => exact hne q (by simp [List.dropLast_cons₂, hq])
    have hhead : ∀ b, b = bCR ∨ b = bLF → (p.2 ++ nlSegments rest).head? ≠ some b := by
      intro b hb
      cases hp2 : p.2 with
      | cons x t =>
        have hx := hp.2 x (by rw [hp2]; exact List.mem_cons_self _ _)
        simp only [List.cons_append, List.head?_cons, ne_eq, Option.some.injEq]
        rintro rfl
        tauto
      | nil =>
        cases rest with
        | nil => simp [nlSegments]
        | cons r rest =>
          exact absurd hp2 (hne p (by simp [List.dropLast_cons₂]))
    rw [nlSegments, countNl_newline p.1 _ count newline hp.1 (fun _ => hhead _ (Or.inl rfl))
      (fun _ => hhead _ (Or.inr rfl)), countNl_skip _ _ _ _ hp.2, ih _ _ hrest hne2,
      lastNewline, List.length_cons]
    congr 1
    omega

/-! ## Lemmas on newline counting and the directive assembler -/

theorem take_nlLen_spelling {c : Nat} (r : List Nat) (h : c = bCR ∨ c = bLF) :
    (c :: r).take (nlLen (c :: r)) = [bLF] ∨ (c :: r).take (nlLen (c :: r)) = [bCR] ∨
      (c :: r).take (nlLen (c :: r)) = [bCR, bLF] ∨
      (c :: r).take (nlLen (c :: r)) = [bLF, bCR] := by
  cases r with
  | nil => rcases h with h | h <;> subst h <;> simp [nlLen]
  | cons d r =>
    rcases h with h | h <;> subst h
    · by_cases hd : d = bLF
      · subst hd; simp [nlLen]
      · simp [nlLen, hd]
    · by_cases hd : d = bCR
      · subst hd; simp [nlLen]
      · simp [nlLen, hd]

theorem countNl_newline_inv :
    ∀ (n : Nat) (l : List Nat) (count : Nat) (newline : List Nat), l.length ≤ n →
      ((count = 0 ∧ newline = []) ∨ newline = [bLF] ∨ newline = [bCR] ∨
        newline = [bCR, bLF] ∨ newline = [bLF, bCR]) →
      (((countNl l count newline).1 = 0 ∧ (countNl l count newline).2 = []) ∨
        (countNl l count newline).2 = [bLF] ∨ (countNl l count newline).2 = [bCR] ∨
        (countNl l count newline).2 = [bCR, bLF] ∨ (countNl l count newline).2 = [bLF, bCR]) := by
  intro n
  induction n with
  | zero =>
    intro l count newline hl h
    have : l = [] := List.length_eq_zero.mp (by omega)
    subst this
    simpa [countNl_nil] using h
  | succ n ih =>
    intro l count newline hl h
    cases l with
    | nil => simpa [countNl_nil] using h
    | cons c r =>
      by_cases hc : c = bCR ∨ c = bLF
      · rw [countNl_cons_nl _ _ _ hc]
        have hp := nlLen_pos r hc
        apply ih
        · rw [List.length_drop]
          simp only [List.length_cons] at hl ⊢
          omega
        · exact Or.inr (take_nlLen_spelling r hc)
      · rw [countNl_cons_other _ _ _ hc]
        exact ih r count newline (by simp only [List.length_cons] at hl; omega) h

theorem stringsRepeat_head (nl : List Nat) (b : Nat) (hb : nl.head? = some b) (hne : nl ≠ []) :
    ∀ n, (stringsRepeat nl n).head? = none ∨ (stringsRepeat nl n).head? = some b := by
  intro n
  cases n with
  | zero => left; rfl
  | succ n =>
    right
    cases nl with
    | nil => exact absurd rfl hne
    | cons x t => simpa [stringsRepeat] using hb

theorem countNl_repeat (nl : List Nat)
    (hnl : nl = [bLF] ∨ nl = [bCR] ∨ nl = [bCR, bLF] ∨ nl = [bLF, bCR]) :
    ∀ (n count : Nat) (newline : List Nat),
      (countNl (stringsRepeat nl n) count newline).1 = count + n := by
  intro n
  induction n with
  | zero =>
    intro count newline
    simp [stringsRepeat, countNl_nil]
  | succ n ih =>
    intro count newline
    have hlf : nl = [bLF] → (stringsRepeat nl n).head? ≠ some bCR := by
      intro e
      rcases stringsRepeat_head nl bLF (by rw [e]; rfl) (by rw [e]; simp) n with h | h <;>
        rw [h] <;> simp
    have hcr : nl = [bCR] → (stringsRepeat nl n).head? ≠ some bLF := by
      intro e
      rcases stringsRepeat_head nl bCR (by rw [e]; rfl) (by rw [e]; simp) n with h | h <;>
        rw [h] <;> simp
    rw [stringsRepeat, countNl_newline nl _ count newline hnl hlf hcr, ih]
    omega

theorem countNewlines_repeat (span : List Nat) :
    (countNewlines (stringsRepeat (countNewlines span).2 (countNewlines span).1)).1 =
      (countNewlines span).1 := by
  have hinv := countNl_newline_inv span.length span 0 [] (le_refl _) (Or.inl ⟨rfl, rfl⟩)
  rw [← countNewlines_eq] at hinv
  rcases hinv with ⟨h1, h2⟩ | h
  · rw [h1, h2]
    rfl
  · rw [countNewlines_eq (stringsRepeat _ _), countNl_repeat _ h, Nat.zero_add]

theorem slice?_eq_some {input : List Nat} {lo hi : Nat} (h : lo ≤ hi ∧ hi ≤ input.length) :
    slice? input lo hi = some (slice input lo hi) := by
  rw [slice?, if_pos h]

theorem isIncludeDirective_iff (tbag : tokenBag) :
    tbag.isIncludeDirective = true ↔
      2 ≤ tbag.count ∧ (tbag.tokens 0).kind = tokHash ∧
        ((tbag.tokens 1).kind = tokInclude ∨ (tbag.tokens 1).kind = tokIncludeNext) := by
  unfold tokenBag.isIncludeDirective
  split_ifs with h
  · simp only [decide_eq_true_eq]
    constructor
    · intro h2; exact ⟨h.1, h.2, h2⟩
    · intro h2; exact h2.2.2
  · constructor
    · intro h2; exact absurd h2 (by simp)
    · intro h2; exact absurd ⟨h2.1, h2.2.1⟩ h

/-- What `handleIncludeDirective` has gone through when it returns a directive. -/
theorem handleIncludeDirective_some {tbag : tokenBag} {endPos : Nat} {s : Scanner}
    {d : IncludeDirective} {errs : List Error}
    (h : tbag.handleIncludeDirective endPos s = some (some d, errs)) :
    tbag.isIncludeDirective = true ∧ tbag.count ≠ 2 ∧
    ∃ text kind path span, (tbag.tokens 2).string s = some text ∧
      resolveArg (tbag.tokens 2).kind text = some (some (kind, path)) ∧ path.length ≠ 0 ∧
      slice? s.input (tbag.tokens 0).pos endPos = some span ∧ errs = [] ∧
      d = { Path := path, Kind := kind,
            IncludeNext := decide ((tbag.tokens 1).kind = tokIncludeNext),
            Line := (tbag.tokens 0).line, Pos := (tbag.tokens 0).pos, End := endPos,
            NlPad := stringsRepeat (countNewlines span).2 (countNewlines span).1 } := by
  unfold tokenBag.handleIncludeDirective at h
  split_ifs at h with h1 h2
  · simp at h
  · simp only at h
    split at h <;> simp at h
  · simp only at h
    refine ⟨by simpa using h1, h2, ?_⟩
    split at h
    · simp at h
    · rename_i text htext
      split at h
      · simp at h
      · simp at h
      · rename_i kind path hres
        split_ifs at h with h3
        · simp at h
        · split at h
          · simp at h
          · rename_i span hspan
            simp only [Option.some.injEq, Prod.mk.injEq] at h
            exact ⟨text, kind, path, span, htext, hres, h3, hspan, h.2.symm, h.1.symm⟩

/-- The directive returned when the argument resolves to a non-empty path. -/
theorem handleIncludeDirective_resolved {tbag : tokenBag} {endPos : Nat} {s : Scanner}
    {text path : List Nat} {kind : tokenKind}
    (hhash : (tbag.tokens 0).kind = tokHash)
    (hinc : (tbag.tokens 1).kind = tokInclude ∨ (tbag.tokens 1).kind = tokIncludeNext)
    (hcount : 3 ≤ tbag.count)
    (htext : (tbag.tokens 2).string s = some text)
    (hspan : (tbag.tokens 0).pos ≤ endPos ∧ endPos ≤ s.input.length)
    (hres : resolveArg (tbag.tokens 2).kind text = some (some (kind, path)))
    (hne : path ≠ []) :
    ∃ d, tbag.handleIncludeDirective endPos s = some (some d, []) ∧ d.Path = path ∧
      d.Kind = kind := by
  have hinc2 : tbag.isIncludeDirective = true :=
    (isIncludeDirective_iff tbag).mpr ⟨by omega, hhash, hinc⟩
  have hc2 : tbag.count ≠ 2 := by omega
  have hlen : path.length ≠ 0 := fun e => hne (List.length_eq_zero.mp e)
  refine ⟨{ Path := path, Kind := kind,
            IncludeNext := decide ((tbag.tokens 1).kind = tokIncludeNext),
            Line := (tbag.tokens 0).line, Pos := (tbag.tokens 0).pos, End := endPos,
            NlPad := stringsRepeat
              (countNewlines (slice s.input (tbag.tokens 0).pos endPos)).2
              (countNewlines (slice s.input (tbag.tokens 0).pos endPos)).1 }, ?_, rfl, rfl⟩
  unfold tokenBag.handleIncludeDirective
  simp only [hinc2, Bool.true_eq_false, if_false, hc2, htext, hres, hlen, slice?_eq_some hspan]

theorem slice_drop_one_dropLast (text : List Nat) :
    slice text 1 (text.length - 1) = (text.drop 1).dropLast := by
  rw [slice, List.dropLast_eq_take, List.length_drop]

theorem slice_drop_one (text : List Nat) : slice text 1 text.length = text.drop 1 := by
  rw [slice, ← List.length_drop, List.take_length]

theorem drop_one_dropLast_ne_nil {text : List Nat} (h : 3 ≤ text.length) :
    (text.drop 1).dropLast ≠ [] := by
  intro e
  have := congrArg List.length e
  simp only [List.length_dropLast, List.length_drop, List.length_nil] at this
  omega

theorem drop_one_ne_nil {text : List Nat} (h : 2 ≤ text.length) : text.drop 1 ≠ [] := by
  intro e
  have := congrArg List.length e
  simp only [List.length_drop, List.length_nil] at this
  omega

theorem resolveArg_identifier (text : List Nat) :
    resolveArg tokIdentifier text = some (some (tokIdentifier, text)) := by
  simp [resolveArg]

theorem resolveArg_string {kind : tokenKind} (text : List Nat)
    (hk : kind = tokQString ∨ kind = tokAString) (h : 2 ≤ text.length) :
    resolveArg kind text = some (some (kind, (text.drop 1).dropLast)) := by
  have h1 : kind ≠ tokIdentifier := by
    rcases hk with hk | hk <;> subst hk <;> decide
  have hs : slice? text 1 (text.length - 1) = some (slice text 1 (text.length - 1)) :=
    slice?_eq_some ⟨by omega, by omega⟩
  simp only [resolveArg, if_neg h1, if_pos hk, hs, slice_drop_one_dropLast]

theorem resolveArg_unterminated {kind : tokenKind} (text : List Nat)
    (hk : kind = tokUnterminatedQString ∨ kind = tokUnterminatedAString)
    (h : 1 ≤ text.length) :
    resolveArg kind text =
      some (some (if kind = tokUnterminatedQString then tokQString else tokAString,
        text.drop 1)) := by
  have hs : slice? text 1 text.length = some (slice text 1 text.length) :=
    slice?_eq_some ⟨h, le_refl _⟩
  rcases hk with hk | hk <;> subst hk <;> simp [resolveArg, hs, slice_drop_one]

theorem resolveArg_kind {kind kind2 : tokenKind} {text path : List Nat}
    (h : resolveArg kind text = some (some (kind2, path))) :
    kind2 = tokAString ∨ kind2 = tokQString ∨ kind2 = tokIdentifier := by
  unfold resolveArg at h
  split_ifs at h with h1 h2 h3 h4
  · simp only [Option.some.injEq, Prod.mk.injEq] at h
    right; right; rw [← h.1]; exact h1
  · split at h
    · simp at h
    · simp only [Option.some.injEq, Prod.mk.injEq] at h
      rcases h2 with h2 | h2
      · right; left; rw [← h.1]; exact h2
      · left; rw [← h.1]; exact h2
  · split at h
    · simp at h
    · simp only [Option.some.injEq, Prod.mk.injEq] at h
      right; left; exact h.1.symm
  · split at h
    · simp at h
    · simp only [Option.some.injEq, Prod.mk.injEq] at h
      left; exact h.1.symm
  · simp at h

/-! ## Claims about the line-splice utility -/

/-- C1, as stated, fails.  On the four bytes backslash, backslash, LF, LF the
only continuation starts at offset 1; the pass of `removeLineCont` removes it
and leaves backslash, LF, which is a continuation itself, so that a second pass
returns the empty text. -/
theorem removeLineCont_not_idempotent :
    removeLineCont [92, 92, 10, 10] = [92, 10] ∧
    removeLineCont (removeLineCont [92, 92, 10, 10]) = [] ∧
    removeLineCont (removeLineCont [92, 92, 10, 10]) ≠ removeLineCont [92, 92, 10, 10] := by
  decide

/-- C1, amended: applying `removeLineCont` a second time changes nothing exactly
when the result of the first pass contains no line continuation; this is so in
particular for every input that contains no line continuation, which the first
pass returns as it is. -/
theorem removeLineCont_idempotent_iff (x : List Nat) :
    (removeLineCont (removeLineCont x) = removeLineCont x ↔
      nextLineContOrEnd (removeLineCont x) 0 = (removeLineCont x).length) ∧
    (nextLineContOrEnd x 0 = x.length →
      removeLineCont x = x ∧ removeLineCont (removeLineCont x) = removeLineCont x) := by
  simp only [removeLineCont_eq_strip, nextLineContOrEnd_zero]
  refine ⟨⟨distCont_of_strip_eq, strip_of_distCont_eq⟩, ?_⟩
  intro h
  have hx := strip_of_distCont_eq h
  rw [hx]
  exact ⟨rfl, hx⟩

/-- C1 witness: the input `foo`, backslash, `bar` has no continuation. -/
theorem removeLineCont_idempotent_iff_witness :
    nextLineContOrEnd [102, 111, 111, 92, 98, 97, 114] 0 = 7 ∧
      removeLineCont [102, 111, 111, 92, 98, 97, 114] = [102, 111, 111, 92, 98, 97, 114] ∧
      removeLineCont (removeLineCont [102, 111, 111, 92, 98, 97, 114]) =
        removeLineCont [102, 111, 111, 92, 98, 97, 114] :=
  ⟨by decide, (removeLineCont_idempotent_iff [102, 111, 111, 92, 98, 97, 114]).2 (by decide)⟩

/-- C2: a backslash, a run `ws` of horizontal whitespace and a newline `nl` between
two texts `a` and `b` are removed and the texts joined, each stripped of its own
continuations; `b` must not begin with the byte that would pair up with a
one-byte `nl` into a two-byte newline. -/
theorem removeLineCont_join (a b ws nl : List Nat)
    (hws : ∀ c ∈ ws, c = bSpace ∨ c = bTab ∨ c = bVTab)
    (hnl : nl = [bLF] ∨ nl = [bCR] ∨ nl = [bCR, bLF] ∨ nl = [bLF, bCR])
    (hlf : nl = [bLF] → b.head? ≠ some bCR) (hcr : nl = [bCR] → b.head? ≠ some bLF) :
    removeLineCont (a ++ [bBackslash] ++ ws ++ nl ++ b) =
      removeLineCont a ++ removeLineCont b := by
  simp only [removeLineCont_eq_strip]
  have e : a ++ [bBackslash] ++ ws ++ nl ++ b = a ++ bBackslash :: (ws ++ (nl ++ b)) := by simp
  rw [e, strip_append_backslash _ a.length a (le_refl _), strip_cont ws nl b hws hnl hlf hcr]

/-- C2 witnesses: `foo\` LF `bar`, `foo\` space LF `bar` and `foo\` LF. -/
theorem removeLineCont_join_witness :
    (removeLineCont ([102, 111, 111] ++ [bBackslash] ++ [] ++ [bLF] ++ [98, 97, 114]) =
        removeLineCont [102, 111, 111] ++ removeLineCont [98, 97, 114] ∧
      removeLineCont [102, 111, 111, 92, 10, 98, 97, 114] = [102, 111, 111, 98, 97, 114]) ∧
    (removeLineCont ([102, 111, 111] ++ [bBackslash] ++ [bSpace] ++ [bLF] ++ [98, 97, 114]) =
        removeLineCont [102, 111, 111] ++ removeLineCont [98, 97, 114] ∧
      removeLineCont [102, 111, 111, 92, 32, 10, 98, 97, 114] = [102, 111, 111, 98, 97, 114]) ∧
    (removeLineCont ([102, 111, 111] ++ [bBackslash] ++ [] ++ [bLF] ++ []) =
        removeLineCont [102, 111, 111] ++ removeLineCont [] ∧
      removeLineCont [102, 111, 111, 92, 10] = [102, 111, 111]) :=
  ⟨⟨removeLineCont_join [102, 111, 111] [98, 97, 114] [] [bLF] (by decide) (by decide)
      (by decide) (by decide), by decide⟩,
   ⟨removeLineCont_join [102, 111, 111] [98, 97, 114] [bSpace] [bLF] (by decide) (by decide)
      (by decide) (by decide), by decide⟩,
   ⟨removeLineCont_join [102, 111, 111] [] [] [bLF] (by decide) (by decide)
      (by decide) (by decide), by decide⟩⟩

/-- C3: text without line continuations is returned untouched.  The hypothesis is
either that the search for a continuation from offset 0 runs to the end of the
input, or that the input has no backslash followed by horizontal whitespace
(possibly none) and a `'\r'` or `'\n'`. -/
theorem removeLineCont_id (input : List Nat)
    (h : nextLineContOrEnd input 0 = input.length ∨
      ∀ pre ws c rest, input = pre ++ bBackslash :: (ws ++ c :: rest) →
        (∀ b ∈ ws, b = bSpace ∨ b = bTab ∨ b = bVTab) → ¬ (c = bCR ∨ c = bLF)) :
    removeLineCont input = input := by
  rw [removeLineCont_eq_strip]
  apply strip_of_distCont_eq
  rcases h with h | h
  · rw [← nextLineContOrEnd_zero]; exact h
  · by_contra hne
    have hlt : distCont input < input.length := lt_of_le_of_ne (distCont_le input) hne
    obtain ⟨ws, c, rest, e, hws, hc⟩ := contLen_ne_zero (distCont_lt hlt)
    refine h (input.take (distCont input)) ws c rest ?_ hws hc
    rw [← e, List.take_append_drop]

/-- C3 witnesses: the empty text, `foo`, `foo\bar` and `foo\`. -/
theorem removeLineCont_id_witness :
    (nextLineContOrEnd [] 0 = 0 ∧ removeLineCont [] = []) ∧
    (nextLineContOrEnd [102, 111, 111] 0 = 3 ∧
      removeLineCont [102, 111, 111] = [102, 111, 111]) ∧
    (nextLineContOrEnd [102, 111, 111, 92, 98, 97, 114] 0 = 7 ∧
      removeLineCont [102, 111, 111, 92, 98, 97, 114] = [102, 111, 111, 92, 98, 97, 114]) ∧
    (nextLineContOrEnd [102, 111, 111, 92] 0 = 4 ∧
      removeLineCont [102, 111, 111, 92] = [102, 111, 111, 92]) :=
  ⟨⟨by decide, removeLineCont_id [] (Or.inl (by decide))⟩,
   ⟨by decide, removeLineCont_id [102, 111, 111] (Or.inl (by decide))⟩,
   ⟨by decide, removeLineCont_id [102, 111, 111, 92, 98, 97, 114] (Or.inl (by decide))⟩,
   ⟨by decide, removeLineCont_id [102, 111, 111, 92] (Or.inl (by decide))⟩⟩

/-- C4: `skipLineCont` at an offset `pos` within the input.  If the text from
`pos` on is a backslash, a run `ws` of spaces, tabs and vertical tabs (possibly
empty) and then a `'\r'` or `'\n'`, the result is the offset just after that
newline, a `"\r\n"` or `"\n\r"` pair being taken as one newline; it is then
beyond `pos + 1` and within the input.  In every other case the result is
`pos`. -/
theorem skipLineCont_spec (input : List Nat) (pos : Nat) (hpos : pos ≤ input.length) :
    (∀ ws c rest, input.drop pos = bBackslash :: (ws ++ c :: rest) →
      (∀ b ∈ ws, b = bSpace ∨ b = bTab ∨ b = bVTab) → (c = bCR ∨ c = bLF) →
      skipLineCont input pos = pos + 1 + ws.length +
          (if (c = bCR ∧ rest.head? = some bLF) ∨ (c = bLF ∧ rest.head? = some bCR)
            then 2 else 1) ∧
        pos + 1 < skipLineCont input pos ∧ skipLineCont input pos ≤ input.length) ∧
    ((¬ ∃ ws c rest, input.drop pos = bBackslash :: (ws ++ c :: rest) ∧
        (∀ b ∈ ws, b = bSpace ∨ b = bTab ∨ b = bVTab) ∧ (c = bCR ∨ c = bLF)) →
      skipLineCont input pos = pos) := by
  have hs := skipLineCont_eq input pos hpos
  have hle := contLen_le (input.drop pos)
  have hlen : (input.drop pos).length = input.length - pos := List.length_drop _ _
  constructor
  · intro ws c rest e hws hc
    have hk := contLen_cont ws c rest hws hc
    have hp := nlLen_pos rest hc
    have hn : nlLen (c :: rest) =
        (if (c = bCR ∧ rest.head? = some bLF) ∨ (c = bLF ∧ rest.head? = some bCR)
          then 2 else 1) := by
      simp only [bCR, bLF] at hc ⊢
      rcases hc with hc | hc <;> subst hc <;> simp [nlLen]
    rw [← e] at hk
    rw [← hn]
    omega
  · intro hno
    have hz : contLen (input.drop pos) = 0 := by
      by_contra hne
      exact hno (contLen_ne_zero hne)
    omega

/-- C4 witnesses: in `foo`, backslash, space, CR, LF, `bar` the continuation at
offset 3 ends at offset 7; in `foo`, backslash, `bar` no continuation starts at
offset 3. -/
theorem skipLineCont_spec_witness :
    (skipLineCont [102, 111, 111, 92, 32, 13, 10, 98, 97, 114] 3 = 7 ∧
      3 + 1 < skipLineCont [102, 111, 111, 92, 32, 13, 10, 98, 97, 114] 3 ∧
      skipLineCont [102, 111, 111, 92, 32, 13, 10, 98, 97, 114] 3 ≤ 10) ∧
    skipLineCont [102, 111, 111, 92, 98, 97, 114] 3 = 3 :=
  ⟨(skipLineCont_spec [102, 111, 111, 92, 32, 13, 10, 98, 97, 114] 3 (by decide)).1
      [32] 13 [10, 98, 97, 114] (by decide) (by decide) (by decide),
   (skipLineCont_spec [102, 111, 111, 92, 98, 97, 114] 3 (by decide)).2 (by
      rintro ⟨ws, c, rest, e, hws, hc⟩
      cases ws with
      | nil =>
        have h : c = 98 := by
          have := congrArg (fun l => l.getD 1 0) e
          simpa using this.symm
        subst h
        revert hc
        decide
      | cons w ws =>
        have h : w = 98 := by
          have := congrArg (fun l => l.getD 1 0) e
          simpa using this.symm
        have hw := hws w (List.mem_cons_self _ _)
        subst h
        revert hw
        decide)⟩

/-- C5: with `r = nextLineContOrEnd(input, pos)` for an offset `pos` within the
input, `pos <= r <= len(input)`, no offset from `pos` up to `r` (excluded)
starts a line continuation, and `r` is the end of the input or the start of a
line continuation. -/
theorem nextLineContOrEnd_spec (input : List Nat) (pos : Nat) (hpos : pos ≤ input.length) :
    pos ≤ nextLineContOrEnd input pos ∧ nextLineContOrEnd input pos ≤ input.length ∧
    (∀ p, pos ≤ p → p < nextLineContOrEnd input pos → skipLineCont input p = p) ∧
    (nextLineContOrEnd input pos = input.length ∨
      nextLineContOrEnd input pos < skipLineCont input (nextLineContOrEnd input pos)) := by
  have hn := nextLineContOrEnd_eq input pos hpos
  have hd := distCont_le (input.drop pos)
  have hlen : (input.drop pos).length = input.length - pos := List.length_drop _ _
  refine ⟨by omega, by omega, ?_, ?_⟩
  · intro p h1 h2
    have hj : p - pos < distCont (input.drop pos) := by omega
    have hz := contLen_before_distCont hj
    rw [List.drop_drop, Nat.add_sub_cancel' h1] at hz
    rw [skipLineCont_eq input p (by omega), hz]
    rfl
  · by_cases he : distCont (input.drop pos) = (input.drop pos).length
    · left; omega
    · right
      have hlt : distCont (input.drop pos) < (input.drop pos).length := by omega
      have hc := distCont_lt hlt
      rw [List.drop_drop] at hc
      rw [hn, skipLineCont_eq input _ (by omega)]
      omega

/-- C5 witness: from offset 1 of `ab\c\` LF `d` the next continuation is at
offset 4. -/
theorem nextLineContOrEnd_spec_witness :
    nextLineContOrEnd [97, 98, 92, 99, 92, 10, 100] 1 = 4 ∧
    1 ≤ nextLineContOrEnd [97, 98, 92, 99, 92, 10, 100] 1 ∧
    nextLineContOrEnd [97, 98, 92, 99, 92, 10, 100] 1 ≤ 7 ∧
    (∀ p, 1 ≤ p → p < nextLineContOrEnd [97, 98, 92, 99, 92, 10, 100] 1 →
      skipLineCont [97, 98, 92, 99, 92, 10, 100] p = p) ∧
    (nextLineContOrEnd [97, 98, 92, 99, 92, 10, 100] 1 = 7 ∨
      nextLineContOrEnd [97, 98, 92, 99, 92, 10, 100] 1 <
        skipLineCont [97, 98, 92, 99, 92, 10, 100]
          (nextLineContOrEnd [97, 98, 92, 99, 92, 10, 100] 1)) :=
  ⟨by decide, nextLineContOrEnd_spec [97, 98, 92, 99, 92, 10, 100] 1 (by decide)⟩

/-- C6: `countNewlines` on a text `t0 nl1 t1 ... nln tn`, where the `ti` hold no
`'\r'` or `'\n'`, every `ti` but `t0` and `tn` is non-empty and every `nli` is one
of the four newline spellings (`segs` lists the pairs `(nli, ti)`): the result is
the number `n` of newlines and the last spelling `nln`; for `n = 0` the right-hand
side is `(0, "")`. -/
theorem countNewlines_spec (t0 : List Nat) (segs : List (List Nat × List Nat))
    (ht0 : ∀ c ∈ t0, c ≠ bCR ∧ c ≠ bLF)
    (hsegs : ∀ p ∈ segs,
      (p.1 = [bLF] ∨ p.1 = [bCR] ∨ p.1 = [bCR, bLF] ∨ p.1 = [bLF, bCR]) ∧
      ∀ c ∈ p.2, c ≠ bCR ∧ c ≠ bLF)
    (hne : ∀ p ∈ segs.dropLast, p.2 ≠ []) :
    countNewlines (t0 ++ nlSegments segs) =
      (segs.length, (segs.getLast?.map Prod.fst).getD []) := by
  rw [countNewlines_eq, countNl_skip _ _ _ _ ht0, countNl_segments segs 0 [] hsegs hne,
    lastNewline_eq, Nat.zero_add]

/-- C6 witness: `a` CR LF `b` LF `c` LF CR holds three newlines, the last one LF CR;
`abc` holds none. -/
theorem countNewlines_spec_witness :
    countNewlines ([97] ++ nlSegments [([13, 10], [98]), ([10], [99]), ([10, 13], [])]) =
      (3, [10, 13]) ∧
    countNewlines ([97, 98, 99] ++ nlSegments []) = (0, []) :=
  ⟨countNewlines_spec [97] [([13, 10], [98]), ([10], [99]), ([10, 13], [])]
      (by decide) (by decide) (by decide),
   countNewlines_spec [97, 98, 99] [] (by decide) (by decide) (by decide)⟩

/-! ## Claims about the directive assembler -/

/-- C7: for every directive `d` that `handleIncludeDirective` returns, the slice
`input[d.Pos:d.End]` is in range and, with `(n, nl)` the result of `countNewlines`
on it, `d.NlPad` is `nl` repeated `n` times and `countNewlines(d.NlPad)` counts
`n` newlines again. -/
theorem handleIncludeDirective_nlPad (tbag : tokenBag) (endPos : Nat) (s : Scanner)
    (d : IncludeDirective) (errs : List Error)
    (h : tbag.handleIncludeDirective endPos s = some (some d, errs)) :
    ∃ span, slice? s.input d.Pos d.End = some span ∧
      d.NlPad = stringsRepeat (countNewlines span).2 (countNewlines span).1 ∧
      (countNewlines d.NlPad).1 = (countNewlines span).1 := by
  obtain ⟨_, _, text, kind, path, span, _, _, _, hspan, _, hd⟩ := handleIncludeDirective_some h
  subst hd
  exact ⟨span, hspan, rfl, countNewlines_repeat span⟩

/-- C7 witness: the directive `#include \` LF `<a>` LF spans two lines and gets
the padding LF LF. -/
theorem handleIncludeDirective_nlPad_witness :
    (windowOf (NewScanner (ascii "#include \\\n<a>\n") true)
        [(tokHash, 0, 1, 1), (tokInclude, 1, 8, 1), (tokAString, 11, 14, 2)]).handleIncludeDirective
        15 (NewScanner (ascii "#include \\\n<a>\n") true) =
      some (some { Path := ascii "a", Kind := IncludeAngled, IncludeNext := false, Line := 1,
                   Pos := 0, End := 15, NlPad := [10, 10] }, []) ∧
    ∃ span, slice? (ascii "#include \\\n<a>\n") 0 15 = some span ∧
      [10, 10] = stringsRepeat (countNewlines span).2 (countNewlines span).1 ∧
      (countNewlines [10, 10]).1 = (countNewlines span).1 :=
  ⟨by decide,
   handleIncludeDirective_nlPad
    (windowOf (NewScanner (ascii "#include \\\n<a>\n") true)
      [(tokHash, 0, 1, 1), (tokInclude, 1, 8, 1), (tokAString, 11, 14, 2)])
    15 (NewScanner (ascii "#include \\\n<a>\n") true)
    { Path := ascii "a", Kind := IncludeAngled, IncludeNext := false, Line := 1,
      Pos := 0, End := 15, NlPad := [10, 10] } [] (by decide)⟩

/-- C8: in a window whose token 0 is a hash, whose token 1 is `include` or
`include_next` and which holds at least 3 tokens, let `text` be the logical text
`token.string` of token 2 and let the span from the hash to `endPos` lie within
the input.  An identifier with non-empty text gives a directive with that text as
`Path` and kind `IncludeMacro`; a quoted (angled) string of at least 3 bytes gives
a directive whose `Path` is the text without its first and last byte and whose
kind is `IncludeQuoted` (`IncludeAngled`).  No error is reported. -/
theorem handleIncludeDirective_arg (tbag : tokenBag) (endPos : Nat) (s : Scanner)
    (text : List Nat)
    (hhash : (tbag.tokens 0).kind = tokHash)
    (hinc : (tbag.tokens 1).kind = tokInclude ∨ (tbag.tokens 1).kind = tokIncludeNext)
    (hcount : 3 ≤ tbag.count)
    (htext : (tbag.tokens 2).string s = some text)
    (hspan : (tbag.tokens 0).pos ≤ endPos ∧ endPos ≤ s.input.length) :
    ((tbag.tokens 2).kind = tokIdentifier → text ≠ [] →
      ∃ d, tbag.handleIncludeDirective endPos s = some (some d, []) ∧
        d.Path = text ∧ d.Kind = IncludeMacro) ∧
    ((tbag.tokens 2).kind = tokQString → 3 ≤ text.length →
      ∃ d, tbag.handleIncludeDirective endPos s = some (some d, []) ∧
        d.Path = (text.drop 1).dropLast ∧ d.Kind = IncludeQuoted) ∧
    ((tbag.tokens 2).kind = tokAString → 3 ≤ text.length →
      ∃ d, tbag.handleIncludeDirective endPos s = some (some d, []) ∧
        d.Path = (text.drop 1).dropLast ∧ d.Kind = IncludeAngled) := by
  refine ⟨?_, ?_, ?_⟩
  · intro hk hne
    have hres := resolveArg_identifier text
    rw [← hk] at hres
    obtain ⟨d, h1, h2, h3⟩ :=
      handleIncludeDirective_resolved hhash hinc hcount htext hspan hres hne
    exact ⟨d, h1, h2, by rw [h3, hk]⟩
  · intro hk hlen
    have hres := resolveArg_string text (Or.inl hk) (by omega)
    obtain ⟨d, h1, h2, h3⟩ := handleIncludeDirective_resolved hhash hinc hcount htext hspan hres
      (drop_one_dropLast_ne_nil hlen)
    exact ⟨d, h1, h2, by rw [h3, hk]⟩
  · intro hk hlen
    have hres := resolveArg_string text (Or.inr hk) (by omega)
    obtain ⟨d, h1, h2, h3⟩ := handleIncludeDirective_resolved hhash hinc hcount htext hspan hres
      (drop_one_dropLast_ne_nil hlen)
    exact ⟨d, h1, h2, by rw [h3, hk]⟩

/-- C8 witnesses: the windows of `#include <stdio.h>`, `#include "stdio.h"` and
`#include NAME`, each followed by LF. -/
theorem handleIncludeDirective_arg_witness :
    (∃ d, (windowOf scanMacro [(tokHash, 0, 1, 1), (tokInclude, 1, 8, 1),
          (tokIdentifier, 9, 13, 1)]).handleIncludeDirective 14 scanMacro = some (some d, []) ∧
        d.Path = ascii "NAME" ∧ d.Kind = IncludeMacro) ∧
    (∃ d, (windowOf scanQuoted [(tokHash, 0, 1, 1), (tokInclude, 1, 8, 1),
          (tokQString, 9, 18, 1)]).handleIncludeDirective 19 scanQuoted = some (some d, []) ∧
        d.Path = ((ascii "\"stdio.h\"").drop 1).dropLast ∧ d.Kind = IncludeQuoted) ∧
    (∃ d, (windowOf scanAngled [(tokHash, 0, 1, 1), (tokInclude, 1, 8, 1),
          (tokAString, 9, 18, 1)]).handleIncludeDirective 19 scanAngled = some (some d, []) ∧
        d.Path = ((ascii "<stdio.h>").drop 1).dropLast ∧ d.Kind = IncludeAngled) ∧
    ((ascii "\"stdio.h\"").drop 1).dropLast = ascii "stdio.h" ∧
    ((ascii "<stdio.h>").drop 1).dropLast = ascii "stdio.h" :=
  ⟨(handleIncludeDirective_arg
      (windowOf scanMacro [(tokHash, 0, 1, 1), (tokInclude, 1, 8, 1), (tokIdentifier, 9, 13, 1)])
      14 scanMacro (ascii "NAME") (by decide) (by decide) (by decide) (by decide)
      (by decide)).1 (by decide) (by decide),
   (handleIncludeDirective_arg
      (windowOf scanQuoted [(tokHash, 0, 1, 1), (tokInclude, 1, 8, 1), (tokQString, 9, 18, 1)])
      19 scanQuoted (ascii "\"stdio.h\"") (by decide) (by decide) (by decide) (by decide)
      (by decide)).2.1 (by decide) (by decide),
   (handleIncludeDirective_arg
      (windowOf scanAngled [(tokHash, 0, 1, 1), (tokInclude, 1, 8, 1), (tokAString, 9, 18, 1)])
      19 scanAngled (ascii "<stdio.h>") (by decide) (by decide) (by decide) (by decide)
      (by decide)).2.2 (by decide) (by decide),
   by decide, by decide⟩

/-- C9: in an include-candidate window with at least 3 tokens, with `text` the
logical text of token 2 and the span from the hash to `endPos` within the input,
an unterminated quoted (angled) string of at least 2 bytes gives a directive
whose `Path` is the text without its first byte and whose kind is `IncludeQuoted`
(`IncludeAngled`).  The kind of every directive that is returned is one of
`IncludeAngled`, `IncludeQuoted`, `IncludeMacro`, never an unterminated kind. -/
theorem handleIncludeDirective_unterminated (tbag : tokenBag) (endPos : Nat) (s : Scanner) :
    (∀ text, (tbag.tokens 0).kind = tokHash →
      ((tbag.tokens 1).kind = tokInclude ∨ (tbag.tokens 1).kind = tokIncludeNext) →
      3 ≤ tbag.count → (tbag.tokens 2).string s = some text →
      ((tbag.tokens 0).pos ≤ endPos ∧ endPos ≤ s.input.length) →
      ((tbag.tokens 2).kind = tokUnterminatedQString → 2 ≤ text.length →
        ∃ d, tbag.handleIncludeDirective endPos s = some (some d, []) ∧
          d.Path = text.drop 1 ∧ d.Kind = IncludeQuoted) ∧
      ((tbag.tokens 2).kind = tokUnterminatedAString → 2 ≤ text.length →
        ∃ d, tbag.handleIncludeDirective endPos s = some (some d, []) ∧
          d.Path = text.drop 1 ∧ d.Kind = IncludeAngled)) ∧
    (∀ d errs, tbag.handleIncludeDirective endPos s = some (some d, errs) →
      (d.Kind = IncludeAngled ∨ d.Kind = IncludeQuoted ∨ d.Kind = IncludeMacro) ∧
        d.Kind ≠ tokUnterminatedQString ∧ d.Kind ≠ tokUnterminatedAString) := by
  constructor
  · intro text hhash hinc hcount htext hspan
    constructor
    · intro hk hlen
      have hres := resolveArg_unterminated text (Or.inl hk) (by omega)
      rw [if_pos hk] at hres
      obtain ⟨d, h1, h2, h3⟩ := handleIncludeDirective_resolved hhash hinc hcount htext hspan
        hres (drop_one_ne_nil hlen)
      exact ⟨d, h1, h2, h3⟩
    · intro hk hlen
      have hres := resolveArg_unterminated text (Or.inr hk) (by omega)
      have hne : (tbag.tokens 2).kind ≠ tokUnterminatedQString := by rw [hk]; decide
      rw [if_neg hne] at hres
      obtain ⟨d, h1, h2, h3⟩ := handleIncludeDirective_resolved hhash hinc hcount htext hspan
        hres (drop_one_ne_nil hlen)
      exact ⟨d, h1, h2, h3⟩
  · intro d errs h
    obtain ⟨_, _, text, kind, path, span, _, hres, _, _, _, hd⟩ := handleIncludeDirective_some h
    subst hd
    have hk := resolveArg_kind hres
    refine ⟨hk, ?_, ?_⟩ <;>
    · show kind ≠ _
      rcases hk with hk | hk | hk <;> rw [hk] <;> decide

/-- C9 witnesses: the windows of `#include "stdio.h` and `#include <stdio.h`, each
followed by LF. -/
theorem handleIncludeDirective_unterminated_witness :
    (∃ d, (windowOf scanQuotedUnterm [(tokHash, 0, 1, 1), (tokInclude, 1, 8, 1),
          (tokUnterminatedQString, 9, 17, 1)]).handleIncludeDirective 18 scanQuotedUnterm =
          some (some d, []) ∧
        d.Path = (ascii "\"stdio.h").drop 1 ∧ d.Kind = IncludeQuoted) ∧
    (∃ d, (windowOf scanAngledUnterm [(tokHash, 0, 1, 1), (tokInclude, 1, 8, 1),
          (tokUnterminatedAString, 9, 17, 1)]).handleIncludeDirective 18 scanAngledUnterm =
          some (some d, []) ∧
        d.Path = (ascii "<stdio.h").drop 1 ∧ d.Kind = IncludeAngled) ∧
    (ascii "\"stdio.h").drop 1 = ascii "stdio.h" ∧
    (ascii "<stdio.h").drop 1 = ascii "stdio.h" ∧
    ((IncludeAngled = IncludeAngled ∨ IncludeAngled = IncludeQuoted ∨
        IncludeAngled = IncludeMacro) ∧
      IncludeAngled ≠ tokUnterminatedQString ∧ IncludeAngled ≠ tokUnterminatedAString) :=
  ⟨((handleIncludeDirective_unterminated
      (windowOf scanQuotedUnterm [(tokHash, 0, 1, 1), (tokInclude, 1, 8, 1),
        (tokUnterminatedQString, 9, 17, 1)]) 18 scanQuotedUnterm).1
      (ascii "\"stdio.h") (by decide) (by decide) (by decide) (by decide) (by decide)).1
      (by decide) (by decide),
   ((handleIncludeDirective_unterminated
      (windowOf scanAngledUnterm [(tokHash, 0, 1, 1), (tokInclude, 1, 8, 1),
        (tokUnterminatedAString, 9, 17, 1)]) 18 scanAngledUnterm).1
      (ascii "<stdio.h") (by decide) (by decide) (by decide) (by decide) (by decide)).2
      (by decide) (by decide),
   by decide, by decide,
   (handleIncludeDirective_unterminated
      (windowOf scanAngledUnterm [(tokHash, 0, 1, 1), (tokInclude, 1, 8, 1),
        (tokUnterminatedAString, 9, 17, 1)]) 18 scanAngledUnterm).2
      { Path := ascii "stdio.h", Kind := IncludeAngled, IncludeNext := false, Line := 1,
        Pos := 0, End := 18, NlPad := [10] } [] (by decide)⟩

/-- C10: in a window of exactly 2 tokens, a hash and then `include` or
`include_next`, whose keyword token spans a part of the input, no directive is
returned and exactly one error is reported: `reportError` is called once, with
the message `errExpectedFilename`, the end offset of the keyword token and the
line of that token plus the number of newlines within its span.  A scanner that
has a callback passes exactly this one `Error` to it. -/
theorem handleIncludeDirective_missing_arg (tbag : tokenBag) (endPos : Nat) (s : Scanner)
    (hcount : tbag.count = 2)
    (hhash : (tbag.tokens 0).kind = tokHash)
    (hinc : (tbag.tokens 1).kind = tokInclude ∨ (tbag.tokens 1).kind = tokIncludeNext)
    (hspan : (tbag.tokens 1).pos ≤ (tbag.tokens 1).end_ ∧
      (tbag.tokens 1).end_ ≤ s.input.length) :
    tbag.handleIncludeDirective endPos s =
      some (none, s.reportError errExpectedFilename (tbag.tokens 1).end_
        ((tbag.tokens 1).line +
          (countNewlines (slice s.input (tbag.tokens 1).pos (tbag.tokens 1).end_)).1)) ∧
    (s.errCallback = true →
      tbag.handleIncludeDirective endPos s =
        some (none,
          [{ input := s.input, pos := (tbag.tokens 1).end_,
             line := (tbag.tokens 1).line +
               (countNewlines (slice s.input (tbag.tokens 1).pos (tbag.tokens 1).end_)).1,
             msg := errExpectedFilename }])) := by
  have hinc2 : tbag.isIncludeDirective = true :=
    (isIncludeDirective_iff tbag).mpr ⟨by omega, hhash, hinc⟩
  have h : tbag.handleIncludeDirective endPos s =
      some (none, s.reportError errExpectedFilename (tbag.tokens 1).end_
        ((tbag.tokens 1).line +
          (countNewlines (slice s.input (tbag.tokens 1).pos (tbag.tokens 1).end_)).1)) := by
    unfold tokenBag.handleIncludeDirective
    simp only [hinc2, Bool.true_eq_false, if_false, hcount, if_true, token.endLine,
      slice?_eq_some hspan]
  refine ⟨h, ?_⟩
  intro hcb
  rw [h]
  simp only [Scanner.reportError, hcb, Bool.true_eq_false, if_false]

/-- C10 witness: for ` # include ` LF the error is at offset 10, which is line 1,
column 11. -/
theorem handleIncludeDirective_missing_arg_witness :
    (windowOf scanNoFilename [(tokHash, 1, 2, 1), (tokInclude, 3, 10, 1)]).handleIncludeDirective
        12 scanNoFilename =
      some (none, [{ input := ascii " # include \n", pos := 10, line := 1,
                     msg := errExpectedFilename }]) ∧
    Error.column { input := ascii " # include \n", pos := 10, line := 1,
                   msg := errExpectedFilename } = some 11 :=
  ⟨(handleIncludeDirective_missing_arg
    (windowOf scanNoFilename [(tokHash, 1, 2, 1), (tokInclude, 3, 10, 1)]) 12 scanNoFilename
    (by decide) (by decide) (by decide) (by decide)).2 (by decide), by decide⟩

/-! ## Lemmas on the error paths of the directive assembler -/

theorem resolveArg_default {kind : tokenKind} (text : List Nat)
    (h1 : kind ≠ tokIdentifier) (h2 : kind ≠ tokQString) (h3 : kind ≠ tokAString)
    (h4 : kind ≠ tokUnterminatedQString) (h5 : kind ≠ tokUnterminatedAString) :
    resolveArg kind text = some none := by
  have h23 : ¬ (kind = tokQString ∨ kind = tokAString) := by
    rintro (h | h)
    · exact h2 h
    · exact h3 h
  simp only [resolveArg, if_neg h1, if_neg h23, if_neg h4, if_neg h5]

theorem resolveArg_empty {kind : tokenKind} {text : List Nat}
    (h : (kind = tokIdentifier ∧ text = []) ∨
      ((kind = tokQString ∨ kind = tokAString) ∧ text.length = 2) ∨
      ((kind = tokUnterminatedQString ∨ kind = tokUnterminatedAString) ∧ text.length = 1)) :
    ∃ k, resolveArg kind text = some (some (k, [])) := by
  rcases h with ⟨hk, ht⟩ | ⟨hk, ht⟩ | ⟨hk, ht⟩
  · subst hk; subst ht
    exact ⟨_, resolveArg_identifier []⟩
  · refine ⟨kind, ?_⟩
    rw [resolveArg_string text hk (by omega)]
    have : (text.drop 1).dropLast = [] := by
      apply List.length_eq_zero.mp
      simp only [List.length_dropLast, List.length_drop]
      omega
    rw [this]
  · refine ⟨if kind = tokUnterminatedQString then tokQString else tokAString, ?_⟩
    rw [resolveArg_unterminated text hk (by omega)]
    have : text.drop 1 = [] := by
      apply List.length_eq_zero.mp
      simp only [List.length_drop]
      omega
    rw [this]

/-- The result of `handleIncludeDirective` in a candidate window with an argument
token, in terms of the outcome of the `switch`. -/
theorem handleIncludeDirective_noDirective {tbag : tokenBag} (endPos : Nat) {s : Scanner}
    {text : List Nat}
    (hhash : (tbag.tokens 0).kind = tokHash)
    (hinc : (tbag.tokens 1).kind = tokInclude ∨ (tbag.tokens 1).kind = tokIncludeNext)
    (hcount : 3 ≤ tbag.count)
    (htext : (tbag.tokens 2).string s = some text) :
    (resolveArg (tbag.tokens 2).kind text = some none →
      tbag.handleIncludeDirective endPos s =
        some (none, s.reportError errExpectedFilename (tbag.tokens 2).pos (tbag.tokens 2).line)) ∧
    (∀ k, resolveArg (tbag.tokens 2).kind text = some (some (k, [])) →
      tbag.handleIncludeDirective endPos s =
        some (none, s.reportError errEmptyFilename (tbag.tokens 2).pos (tbag.tokens 2).line)) := by
  have hinc2 : tbag.isIncludeDirective = true :=
    (isIncludeDirective_iff tbag).mpr ⟨by omega, hhash, hinc⟩
  have hc2 : tbag.count ≠ 2 := by omega
  constructor
  · intro hres
    unfold tokenBag.handleIncludeDirective
    simp only [hinc2, Bool.true_eq_false, if_false, hc2, htext, hres]
  · intro k hres
    unfold tokenBag.handleIncludeDirective
    simp only [hinc2, Bool.true_eq_false, if_false, hc2, htext, hres, List.length_nil, if_true]

theorem token_string_isSome {t : token} {s : Scanner}
    (h : t.pos ≤ t.end_ ∧ t.end_ ≤ s.input.length) : ∃ text, t.string s = some text := by
  unfold token.string
  rw [slice?_eq_some h]
  by_cases hp : t.pos ≤ t.prevSoftEnd
  · exact ⟨removeLineCont (slice s.input t.pos t.end_), by simp only [if_pos hp]⟩
  · exact ⟨slice s.input t.pos t.end_, by simp only [if_neg hp]⟩

theorem reportError_callback {s : Scanner} (hcb : s.errCallback = true) (msg : String)
    (pos : Nat) (line : lineNum) :
    s.reportError msg pos line = [{ input := s.input, pos := pos, line := line, msg := msg }] := by
  simp only [Scanner.reportError, hcb, Bool.true_eq_false, if_false]

/-! ## Claims about the error paths of the directive assembler -/

/-- C11: in an include-candidate window with at least 3 tokens whose token 2 spans a
part of the input and has a kind other than identifier, quoted string, angled
string and their unterminated variants, no directive is returned and exactly one
error is reported: `reportError` is called once, with the message
`errExpectedFilename`, the start offset of token 2 and the line of token 2.  A
scanner that has a callback passes exactly this one `Error` to it. -/
theorem handleIncludeDirective_invalid_arg (tbag : tokenBag) (endPos : Nat) (s : Scanner)
    (hhash : (tbag.tokens 0).kind = tokHash)
    (hinc : (tbag.tokens 1).kind = tokInclude ∨ (tbag.tokens 1).kind = tokIncludeNext)
    (hcount : 3 ≤ tbag.count)
    (hspan : (tbag.tokens 2).pos ≤ (tbag.tokens 2).end_ ∧
      (tbag.tokens 2).end_ ≤ s.input.length)
    (hkind : (tbag.tokens 2).kind ≠ tokIdentifier ∧ (tbag.tokens 2).kind ≠ tokQString ∧
      (tbag.tokens 2).kind ≠ tokAString ∧ (tbag.tokens 2).kind ≠ tokUnterminatedQString ∧
      (tbag.tokens 2).kind ≠ tokUnterminatedAString) :
    tbag.handleIncludeDirective endPos s =
      some (none,
        s.reportError errExpectedFilename (tbag.tokens 2).pos (tbag.tokens 2).line) ∧
    (s.errCallback = true →
      tbag.handleIncludeDirective endPos s =
        some (none,
          [{ input := s.input, pos := (tbag.tokens 2).pos, line := (tbag.tokens 2).line,
             msg := errExpectedFilename }])) := by
  obtain ⟨text, htext⟩ := token_string_isSome hspan
  have hres := resolveArg_default text hkind.1 hkind.2.1 hkind.2.2.1 hkind.2.2.2.1
    hkind.2.2.2.2
  have h := (handleIncludeDirective_noDirective endPos hhash hinc hcount htext).1 hres
  refine ⟨h, ?_⟩
  intro hcb
  rw [h, reportError_callback hcb]

/-- C11 witness: for ` # include 's'` LF the char literal at offset 11 gives one error,
on line 1, column 12. -/
theorem handleIncludeDirective_invalid_arg_witness :
    (windowOf scanCharLit
        [(tokHash, 1, 2, 1), (tokInclude, 3, 10, 1), (tokUnspec, 11, 14, 1)]).handleIncludeDirective
        15 scanCharLit =
      some (none, [{ input := ascii " # include 's'\n", pos := 11, line := 1,
                     msg := errExpectedFilename }]) ∧
    Error.column { input := ascii " # include 's'\n", pos := 11, line := 1,
                   msg := errExpectedFilename } = some 12 :=
  ⟨(handleIncludeDirective_invalid_arg
    (windowOf scanCharLit [(tokHash, 1, 2, 1), (tokInclude, 3, 10, 1), (tokUnspec, 11, 14, 1)])
    15 scanCharLit (by decide) (by decide) (by decide) (by decide) (by decide)).2 (by decide),
   by decide⟩

/-- C12: in an include-candidate window with at least 3 tokens, let `text` be the
logical text of token 2.  If the path resolved from it is empty (an identifier
with empty text, a quoted or angled string of just its two delimiters, an
unterminated quoted or angled string of just its opening delimiter), no
directive is returned and exactly one error is reported: `reportError` is called
once, with the message `errEmptyFilename`, the start offset of token 2 and the
line of token 2, whatever the kind; a scanner that has a callback passes exactly
this one `Error` to it.  Hence every directive that is returned has a non-empty
`Path`. -/
theorem handleIncludeDirective_empty_filename (tbag : tokenBag) (endPos : Nat)
    (s : Scanner) :
    (∀ text, (tbag.tokens 0).kind = tokHash →
      ((tbag.tokens 1).kind = tokInclude ∨ (tbag.tokens 1).kind = tokIncludeNext) →
      3 ≤ tbag.count → (tbag.tokens 2).string s = some text →
      (((tbag.tokens 2).kind = tokIdentifier ∧ text = []) ∨
        (((tbag.tokens 2).kind = tokQString ∨ (tbag.tokens 2).kind = tokAString) ∧
          text.length = 2) ∨
        (((tbag.tokens 2).kind = tokUnterminatedQString ∨
            (tbag.tokens 2).kind = tokUnterminatedAString) ∧ text.length = 1)) →
      tbag.handleIncludeDirective endPos s =
          some (none,
            s.reportError errEmptyFilename (tbag.tokens 2).pos (tbag.tokens 2).line) ∧
        (s.errCallback = true →
          tbag.handleIncludeDirective endPos s =
            some (none,
              [{ input := s.input, pos := (tbag.tokens 2).pos, line := (tbag.tokens 2).line,
                 msg := errEmptyFilename }]))) ∧
    (∀ d errs, tbag.handleIncludeDirective endPos s = some (some d, errs) → d.Path ≠ []) := by
  constructor
  · intro text hhash hinc hcount htext hempty
    obtain ⟨k, hres⟩ := resolveArg_empty hempty
    have h := (handleIncludeDirective_noDirective endPos hhash hinc hcount htext).2 k hres
    refine ⟨h, ?_⟩
    intro hcb
    rw [h, reportError_callback hcb]
  · intro d errs h
    obtain ⟨_, _, text, kind, path, span, _, _, hne, _, _, hd⟩ := handleIncludeDirective_some h
    subst hd
    intro e
    exact hne (by rw [show path = [] from e]; rfl)

/-- C12 witnesses: ` # include <>`, ` # include <` and ` # include "`, each followed by
LF, give the error `empty filename` at offset 11, which is line 1, column 12; the
directive returned for `#include <stdio.h>` has a non-empty path. -/
theorem handleIncludeDirective_empty_filename_witness :
    (windowOf scanEmptyAngled
        [(tokHash, 1, 2, 1), (tokInclude, 3, 10, 1),
          (tokAString, 11, 13, 1)]).handleIncludeDirective
        14 scanEmptyAngled =
      some (none, [{ input := ascii " # include <>\n", pos := 11, line := 1,
                     msg := errEmptyFilename }]) ∧
    (windowOf scanEmptyAngledUnterm
        [(tokHash, 1, 2, 1), (tokInclude, 3, 10, 1),
          (tokUnterminatedAString, 11, 12, 1)]).handleIncludeDirective
        13 scanEmptyAngledUnterm =
      some (none, [{ input := ascii " # include <\n", pos := 11, line := 1,
                     msg := errEmptyFilename }]) ∧
    (windowOf scanEmptyQuotedUnterm
        [(tokHash, 1, 2, 1), (tokInclude, 3, 10, 1),
          (tokUnterminatedQString, 11, 12, 1)]).handleIncludeDirective
        13 scanEmptyQuotedUnterm =
      some (none, [{ input := ascii " # include \"\n", pos := 11, line := 1,
                     msg := errEmptyFilename }]) ∧
    (Error.column { input := ascii " # include <>\n", pos := 11, line := 1,
                    msg := errEmptyFilename } = some 12 ∧
      Error.column { input := ascii " # include <\n", pos := 11, line := 1,
                     msg := errEmptyFilename } = some 12 ∧
      Error.column { input := ascii " # include \"\n", pos := 11, line := 1,
                     msg := errEmptyFilename } = some 12) ∧
    ascii "stdio.h" ≠ [] :=
  ⟨((handleIncludeDirective_empty_filename
      (windowOf scanEmptyAngled
        [(tokHash, 1, 2, 1), (tokInclude, 3, 10, 1), (tokAString, 11, 13, 1)])
      14 scanEmptyAngled).1 (ascii "<>") (by decide) (by decide) (by decide) (by decide)
      (by decide)).2 (by decide),
   ((handleIncludeDirective_empty_filename
      (windowOf scanEmptyAngledUnterm
        [(tokHash, 1, 2, 1), (tokInclude, 3, 10, 1), (tokUnterminatedAString, 11, 12, 1)])
      13 scanEmptyAngledUnterm).1 (ascii "<") (by decide) (by decide) (by decide) (by decide)
      (by decide)).2 (by decide),
   ((handleIncludeDirective_empty_filename
      (windowOf scanEmptyQuotedUnterm
        [(tokHash, 1, 2, 1), (tokInclude, 3, 10, 1), (tokUnterminatedQString, 11, 12, 1)])
      13 scanEmptyQuotedUnterm).1 (ascii "\"") (by decide) (by decide) (by decide) (by decide)
      (by decide)).2 (by decide),
   ⟨by decide, by decide, by decide⟩,
   (handleIncludeDirective_empty_filename
      (windowOf scanAngled [(tokHash, 0, 1, 1), (tokInclude, 1, 8, 1), (tokAString, 9, 18, 1)])
      19 scanAngled).2
      { Path := ascii "stdio.h", Kind := IncludeAngled, IncludeNext := false, Line := 1,
        Pos := 0, End := 19, NlPad := [10] } [] (by decide)⟩

/-! ## Lemmas on the token window -/

theorem pushAll_nil (tbag : tokenBag) : tbag.pushAll [] = tbag := rfl

theorem pushAll_cons (tbag : tokenBag) (c : PushCall) (calls : List PushCall) :
    tbag.pushAll (c :: calls) = (tbag.push c.k c.pos c.end_ c.line c.s).pushAll calls := rfl

theorem push_count (tbag : tokenBag) (c : PushCall) :
    (tbag.push c.k c.pos c.end_ c.line c.s).count = tbag.count + 1 := rfl

theorem push_tokens_of_ne (tbag : tokenBag) (c : PushCall) (i : Fin 4)
    (h : i.val ≠ tbag.count) :
    (tbag.push c.k c.pos c.end_ c.line c.s).tokens i = tbag.tokens i := by
  unfold tokenBag.push
  by_cases h4 : tbag.count < 4
  · simp only [if_pos h4, if_neg h]
  · simp only [if_neg h4]

theorem push_tokens_of_eq (tbag : tokenBag) (c : PushCall) (i : Fin 4)
    (h : i.val = tbag.count) :
    (tbag.push c.k c.pos c.end_ c.line c.s).tokens i = c.token := by
  have h4 : tbag.count < 4 := by rw [← h]; exact i.isLt
  unfold tokenBag.push
  simp only [if_pos h4, if_pos h, PushCall.token]

theorem pushAll_count (calls : List PushCall) :
    ∀ tbag : tokenBag, (tbag.pushAll calls).count = tbag.count + calls.length := by
  induction calls with
  | nil => intro tbag; rfl
  | cons c calls ih =>
    intro tbag
    rw [pushAll_cons, ih, push_count, List.length_cons]
    omega

theorem pushAll_tokens_below (calls : List PushCall) :
    ∀ (tbag : tokenBag) (i : Fin 4), i.val < tbag.count →
      (tbag.pushAll calls).tokens i = tbag.tokens i := by
  induction calls with
  | nil => intro tbag i _; rfl
  | cons c calls ih =>
    intro tbag i h
    rw [pushAll_cons, ih _ i (by rw [push_count]; omega), push_tokens_of_ne _ _ _ (by omega)]

theorem pushAll_tokens (calls : List PushCall) :
    ∀ (tbag : tokenBag) (i : Fin 4) (c : PushCall), tbag.count ≤ i.val →
      calls[i.val - tbag.count]? = some c → (tbag.pushAll calls).tokens i = c.token := by
  induction calls with
  | nil => intro tbag i c _ h; simp at h
  | cons c0 calls ih =>
    intro tbag i c hle h
    rw [pushAll_cons]
    by_cases he : i.val = tbag.count
    · rw [he, Nat.sub_self, List.getElem?_cons_zero, Option.some.injEq] at h
      rw [pushAll_tokens_below _ _ i (by rw [push_count]; omega), push_tokens_of_eq _ _ _ he, h]
    · have hs : i.val - tbag.count = (i.val - (tbag.count + 1)) + 1 := by omega
      rw [hs, List.getElem?_cons_succ] at h
      exact ih _ i c (by rw [push_count]; omega) (by rw [push_count]; exact h)

theorem reset_pushAll_tokens (base : tokenBag) (calls : List PushCall) (i : Fin 4)
    (c : PushCall) (h : calls[i.val]? = some c) :
    (base.reset.pushAll calls).tokens i = c.token :=
  pushAll_tokens calls base.reset i c (Nat.zero_le _) (by simpa [tokenBag.reset] using h)

theorem reset_pushAll_count (base : tokenBag) (calls : List PushCall) :
    (base.reset.pushAll calls).count = calls.length := by
  rw [pushAll_count]
  simp [tokenBag.reset]

/-! ## Claims about the token window -/

/-- C15: after a `reset` and the calls `calls` of `push`, `count` is the number of
calls and, for every slot `i < 4` for which there is an `i`-th call, slot `i`
holds the token of that call (kind, span, line and the `prevSoftEnd` of the
scanner at that call).  A `push` into a window with `count >= 4` leaves all four
slots as they are and adds exactly 1 to `count`. -/
theorem push_capacity (base : tokenBag) (calls : List PushCall) :
    (base.reset.pushAll calls).count = calls.length ∧
    (∀ (i : Fin 4) (c : PushCall), calls[i.val]? = some c →
      (base.reset.pushAll calls).tokens i = c.token) ∧
    (∀ (tbag : tokenBag) (c : PushCall), 4 ≤ tbag.count →
      (tbag.push c.k c.pos c.end_ c.line c.s).tokens = tbag.tokens ∧
        (tbag.push c.k c.pos c.end_ c.line c.s).count = tbag.count + 1) := by
  refine ⟨reset_pushAll_count base calls, reset_pushAll_tokens base calls, ?_⟩
  intro tbag c h
  refine ⟨?_, rfl⟩
  funext i
  exact push_tokens_of_ne tbag c i (by have := i.isLt; omega)

/-- C15 witness: five calls of `push` after a `reset` of the zero window; the fifth
call finds `count = 4`. -/
theorem push_capacity_witness :
    (tokenBag.zero.reset.pushAll callsExtra).count = 5 ∧
    (tokenBag.zero.reset.pushAll callsExtra).tokens 3 =
      { kind := tokIdentifier, pos := 13, end_ := 14, line := 1, prevSoftEnd := 0 } ∧
    (((tokenBag.zero.reset.pushAll (callsExtra.take 4)).push
          tokIdentifier 15 16 1 scanExtra).tokens =
        (tokenBag.zero.reset.pushAll (callsExtra.take 4)).tokens ∧
      ((tokenBag.zero.reset.pushAll (callsExtra.take 4)).push
          tokIdentifier 15 16 1 scanExtra).count = 4 + 1) :=
  ⟨(push_capacity tokenBag.zero callsExtra).1,
   (push_capacity tokenBag.zero callsExtra).2.1 3 ⟨tokIdentifier, 13, 14, 1, scanExtra⟩ rfl,
   (push_capacity tokenBag.zero callsExtra).2.2
     (tokenBag.zero.reset.pushAll (callsExtra.take 4))
     ⟨tokIdentifier, 15, 16, 1, scanExtra⟩ (by decide)⟩

/-- The results of `isIncludeDirective` and `handleIncludeDirective` depend on
`count` only through the tests `count >= 2` and `count == 2`, on slots 0 and 1
only if `count >= 2` and on slot 2 only if `count >= 3`. -/
theorem handleIncludeDirective_congr {w1 w2 : tokenBag}
    (h2 : 2 ≤ w1.count ↔ 2 ≤ w2.count) (he : w1.count = 2 ↔ w2.count = 2)
    (h01 : 2 ≤ w1.count → w1.tokens 0 = w2.tokens 0 ∧ w1.tokens 1 = w2.tokens 1)
    (h3 : 3 ≤ w1.count → w1.tokens 2 = w2.tokens 2) :
    w1.isIncludeDirective = w2.isIncludeDirective ∧
      ∀ endPos s, w1.handleIncludeDirective endPos s = w2.handleIncludeDirective endPos s := by
  by_cases hc : 2 ≤ w1.count
  · obtain ⟨e0, e1⟩ := h01 hc
    have hc' : 2 ≤ w2.count := h2.mp hc
    have hi : w1.isIncludeDirective = w2.isIncludeDirective := by
      unfold tokenBag.isIncludeDirective
      simp only [ge_iff_le, hc, hc', true_and, e0, e1]
    refine ⟨hi, ?_⟩
    intro endPos s
    unfold tokenBag.handleIncludeDirective
    rw [hi]
    by_cases hf : w2.isIncludeDirective = false
    · simp only [hf, if_true]
    · simp only [hf, if_false]
      by_cases h2c : w1.count = 2
      · have h2c' : w2.count = 2 := he.mp h2c
        simp only [h2c, h2c', if_true, e1]
      · have h2c' : w2.count ≠ 2 := fun h => h2c (he.mpr h)
        have e2 := h3 (by omega)
        simp only [h2c, h2c', if_false, e0, e1, e2]
  · have hc' : ¬ 2 ≤ w2.count := fun h => hc (h2.mpr h)
    have hi1 : w1.isIncludeDirective = false := by
      unfold tokenBag.isIncludeDirective
      simp only [ge_iff_le, hc, false_and, if_false]
    have hi2 : w2.isIncludeDirective = false := by
      unfold tokenBag.isIncludeDirective
      simp only [ge_iff_le, hc', false_and, if_false]
    refine ⟨by rw [hi1, hi2], ?_⟩
    intro endPos s
    unfold tokenBag.handleIncludeDirective
    simp only [hi1, hi2, if_true]

theorem reset_pushAll_tokens_kind (base : tokenBag) (calls : List PushCall) (i : Fin 4)
    (c : PushCall) (h : calls[i.val]? = some c) :
    ((base.reset.pushAll calls).tokens i).kind = c.k := by
  rw [reset_pushAll_tokens base calls i c h]
  rfl

theorem reset_pushAll_tokens_eq (base1 base2 : tokenBag) (calls : List PushCall) (i : Fin 4)
    (h : i.val < calls.length) :
    (base1.reset.pushAll calls).tokens i = (base2.reset.pushAll calls).tokens i := by
  have hc : calls[i.val]? = some calls[i.val] := List.getElem?_eq_getElem h
  rw [reset_pushAll_tokens base1 calls i _ hc, reset_pushAll_tokens base2 calls i _ hc]

theorem reset_pushAll_tokens_take (base : tokenBag) (calls : List PushCall) (n : Nat)
    (i : Fin 4) (h : i.val < calls.length) (hn : i.val < n) :
    (base.reset.pushAll calls).tokens i = (base.reset.pushAll (calls.take n)).tokens i := by
  have hc : calls[i.val]? = some calls[i.val] := List.getElem?_eq_getElem h
  have ht : (calls.take n)[i.val]? = some calls[i.val] := by
    rw [List.getElem?_take_of_lt hn, hc]
  rw [reset_pushAll_tokens base calls i _ hc, reset_pushAll_tokens base (calls.take n) i _ ht]

/-- C13: the window after a `reset` and the calls `calls` of `push` is an include
candidate exactly if there are at least two calls, the first with kind `tokHash`
and the second with kind `tokInclude` or `tokIncludeNext`; and if it is no
candidate, `handleIncludeDirective` returns no directive and reports no error. -/
theorem isIncludeDirective_spec (base : tokenBag) (calls : List PushCall) :
    ((base.reset.pushAll calls).isIncludeDirective = true ↔
      ∃ c0 c1 rest, calls = c0 :: c1 :: rest ∧ c0.k = tokHash ∧
        (c1.k = tokInclude ∨ c1.k = tokIncludeNext)) ∧
    (∀ endPos s, (base.reset.pushAll calls).isIncludeDirective = false →
      (base.reset.pushAll calls).handleIncludeDirective endPos s = some (none, [])) := by
  constructor
  · rw [isIncludeDirective_iff, reset_pushAll_count]
    constructor
    · rintro ⟨hlen, hhash, hinc⟩
      match calls, hlen with
      | c0 :: c1 :: rest, _ =>
        rw [reset_pushAll_tokens_kind base _ 0 c0 rfl] at hhash
        rw [reset_pushAll_tokens_kind base _ 1 c1 (by simp)] at hinc
        exact ⟨c0, c1, rest, rfl, hhash, hinc⟩
    · rintro ⟨c0, c1, rest, e, hhash, hinc⟩
      subst e
      rw [reset_pushAll_tokens_kind base _ 0 c0 rfl,
        reset_pushAll_tokens_kind base _ 1 c1 (by simp)]
      exact ⟨by simp, hhash, hinc⟩
  · intro endPos s h
    unfold tokenBag.handleIncludeDirective
    simp only [h, if_true]

/-- C13 witnesses: the five tokens of `#include <a> b c` are a candidate; a lone
`#` is none, and nothing comes of it. -/
theorem isIncludeDirective_spec_witness :
    (tokenBag.zero.reset.pushAll callsExtra).isIncludeDirective = true ∧
    (tokenBag.zero.reset.pushAll [⟨tokHash, 0, 1, 1, scanExtra⟩]).isIncludeDirective = false ∧
    (tokenBag.zero.reset.pushAll [⟨tokHash, 0, 1, 1, scanExtra⟩]).handleIncludeDirective
      17 scanExtra = some (none, []) :=
  ⟨(isIncludeDirective_spec tokenBag.zero callsExtra).1.mpr
      ⟨⟨tokHash, 0, 1, 1, scanExtra⟩, ⟨tokInclude, 1, 8, 1, scanExtra⟩, _, rfl, rfl,
        Or.inl rfl⟩,
   by decide,
   (isIncludeDirective_spec tokenBag.zero [⟨tokHash, 0, 1, 1, scanExtra⟩]).2 17 scanExtra
      (by decide)⟩

/-- C14, as stated, fails: after the five calls of `push` for `#include <a> b c` the
window has overflowed (`count = 5 > 4`), yet it is an include candidate and
`handleIncludeDirective` returns the directive for `<a>`. -/
theorem overflow_still_directive :
    (tokenBag.zero.reset.pushAll callsExtra).count = 5 ∧
    (tokenBag.zero.reset.pushAll callsExtra).isIncludeDirective = true ∧
    (tokenBag.zero.reset.pushAll callsExtra).handleIncludeDirective 17 scanExtra =
      some (some { Path := ascii "a", Kind := IncludeAngled, IncludeNext := false, Line := 1,
                   Pos := 0, End := 17, NlPad := [10] }, []) := by
  decide

/-- C14, amended: tokens pushed after the third do not change the shape check.
For a window into which at least 3 tokens, in particular more than the 4 it can
store, have been pushed since the last `reset`, `isIncludeDirective` and
`handleIncludeDirective` return what they return for the window into which only
the first three of these tokens were pushed. -/
theorem overflow_irrelevant (base : tokenBag) (calls : List PushCall)
    (h : 3 ≤ calls.length) :
    (base.reset.pushAll calls).isIncludeDirective =
      (base.reset.pushAll (calls.take 3)).isIncludeDirective ∧
    ∀ endPos s, (base.reset.pushAll calls).handleIncludeDirective endPos s =
      (base.reset.pushAll (calls.take 3)).handleIncludeDirective endPos s := by
  have hl : (calls.take 3).length = 3 := by rw [List.length_take]; omega
  apply handleIncludeDirective_congr
  · rw [reset_pushAll_count, reset_pushAll_count, hl]; omega
  · rw [reset_pushAll_count, reset_pushAll_count, hl]; omega
  · intro _
    exact ⟨reset_pushAll_tokens_take base calls 3 0 (by show 0 < calls.length; omega)
        (by show 0 < 3; omega),
      reset_pushAll_tokens_take base calls 3 1 (by show 1 < calls.length; omega)
        (by show 1 < 3; omega)⟩
  · intro _
    exact reset_pushAll_tokens_take base calls 3 2 (by show 2 < calls.length; omega)
      (by show 2 < 3; omega)

/-- C14 witness: the overflowing window of `#include <a> b c` gives the results of
the window of its first three tokens. -/
theorem overflow_irrelevant_witness :
    (tokenBag.zero.reset.pushAll callsExtra).isIncludeDirective =
      (tokenBag.zero.reset.pushAll (callsExtra.take 3)).isIncludeDirective ∧
    ∀ endPos s, (tokenBag.zero.reset.pushAll callsExtra).handleIncludeDirective endPos s =
      (tokenBag.zero.reset.pushAll (callsExtra.take 3)).handleIncludeDirective endPos s :=
  overflow_irrelevant tokenBag.zero callsExtra (by decide)

/-- C20: `reset` sets `count` to 0 and leaves the four slots as they were.  Two
windows that got the same calls of `push` since their last `reset` give the same
result of `isIncludeDirective` and, for the same `endPos` and scanner, the same
result of `handleIncludeDirective` (directive and errors), whatever their slots
held before the `reset`.  More generally both functions agree on any two windows
with the same `count` and the same tokens in the slots `i < count`. -/
theorem stale_tokens_unread (base1 base2 : tokenBag) (calls : List PushCall) :
    (base1.reset.count = 0 ∧ base1.reset.tokens = base1.tokens) ∧
    ((base1.reset.pushAll calls).isIncludeDirective =
        (base2.reset.pushAll calls).isIncludeDirective ∧
      ∀ endPos s, (base1.reset.pushAll calls).handleIncludeDirective endPos s =
        (base2.reset.pushAll calls).handleIncludeDirective endPos s) ∧
    (∀ w1 w2 : tokenBag, w1.count = w2.count →
      (∀ i : Fin 4, i.val < w1.count → w1.tokens i = w2.tokens i) →
      w1.isIncludeDirective = w2.isIncludeDirective ∧
        ∀ endPos s, w1.handleIncludeDirective endPos s = w2.handleIncludeDirective endPos s) := by
  have hgen : ∀ w1 w2 : tokenBag, w1.count = w2.count →
      (∀ i : Fin 4, i.val < w1.count → w1.tokens i = w2.tokens i) →
      w1.isIncludeDirective = w2.isIncludeDirective ∧
        ∀ endPos s, w1.handleIncludeDirective endPos s =
          w2.handleIncludeDirective endPos s := by
    intro w1 w2 hc ht
    apply handleIncludeDirective_congr
    · rw [hc]
    · rw [hc]
    · intro h2
      exact ⟨ht 0 (by show 0 < w1.count; omega), ht 1 (by show 1 < w1.count; omega)⟩
    · intro h3
      exact ht 2 (by show 2 < w1.count; omega)
  refine ⟨⟨rfl, rfl⟩, ?_, hgen⟩
  apply hgen
  · rw [reset_pushAll_count, reset_pushAll_count]
  · intro i hi
    rw [reset_pushAll_count] at hi
    exact reset_pushAll_tokens_eq base1 base2 calls i hi

/-- C20 witness: a window that still holds `#`, `include`, `<a>` from the line
before gets one `push` of a `#` after its `reset`.  Slot 1 still holds the stale
`include`, yet the window behaves as the fresh window with the same `push`. -/
theorem stale_tokens_unread_witness :
    (((tokenBag.zero.reset.pushAll callsExtra).reset.pushAll
        [⟨tokHash, 0, 1, 1, scanExtra⟩]).tokens 1).kind = tokInclude ∧
    (((tokenBag.zero.reset.pushAll callsExtra).reset.pushAll
        [⟨tokHash, 0, 1, 1, scanExtra⟩]).isIncludeDirective =
      (tokenBag.zero.reset.pushAll [⟨tokHash, 0, 1, 1, scanExtra⟩]).isIncludeDirective ∧
      ∀ endPos s,
        ((tokenBag.zero.reset.pushAll callsExtra).reset.pushAll
          [⟨tokHash, 0, 1, 1, scanExtra⟩]).handleIncludeDirective endPos s =
        (tokenBag.zero.reset.pushAll
          [⟨tokHash, 0, 1, 1, scanExtra⟩]).handleIncludeDirective endPos s) ∧
    ((tokenBag.zero.reset.pushAll callsExtra).reset.pushAll
        [⟨tokHash, 0, 1, 1, scanExtra⟩]).isIncludeDirective = false :=
  ⟨by decide,
   (stale_tokens_unread (tokenBag.zero.reset.pushAll callsExtra) tokenBag.zero
      [⟨tokHash, 0, 1, 1, scanExtra⟩]).2.1,
   by decide⟩

/-! ## Claims about the fields of a directive and the text of a token -/

/-- C18: for every directive `d` that `handleIncludeDirective` returns, token 0 is
the hash, `d.Pos` and `d.Line` are its start offset and line, `d.End` is the
`endPos` given, `d.Pos <= d.End <= len(input)` (the span was sliced), and
`d.IncludeNext` is true exactly if token 1 has kind `tokIncludeNext`. -/
theorem handleIncludeDirective_fields (tbag : tokenBag) (endPos : Nat) (s : Scanner)
    (d : IncludeDirective) (errs : List Error)
    (h : tbag.handleIncludeDirective endPos s = some (some d, errs)) :
    (tbag.tokens 0).kind = tokHash ∧ d.Pos = (tbag.tokens 0).pos ∧
    d.Line = (tbag.tokens 0).line ∧ d.End = endPos ∧
    (d.Pos ≤ d.End ∧ d.End ≤ s.input.length) ∧
    (d.IncludeNext = true ↔ (tbag.tokens 1).kind = tokIncludeNext) := by
  obtain ⟨hinc, _, text, kind, path, span, _, _, _, hspan, _, hd⟩ :=
    handleIncludeDirective_some h
  subst hd
  have hhash := ((isIncludeDirective_iff tbag).mp hinc).2.1
  have hrange : (tbag.tokens 0).pos ≤ endPos ∧ endPos ≤ s.input.length := by
    unfold slice? at hspan
    by_contra hn
    rw [if_neg hn] at hspan
    exact Option.noConfusion hspan
  exact ⟨hhash, rfl, rfl, rfl, hrange, by simp⟩

/-- C18 witnesses: the directives of `#include <stdio.h>` and of `#include_next
<stdio.h>`, each followed by LF. -/
theorem handleIncludeDirective_fields_witness :
    ((windowOf scanAngled
        [(tokHash, 0, 1, 1), (tokInclude, 1, 8, 1), (tokAString, 9, 18, 1)]).handleIncludeDirective
        19 scanAngled =
      some (some { Path := ascii "stdio.h", Kind := IncludeAngled, IncludeNext := false,
                   Line := 1, Pos := 0, End := 19, NlPad := [10] }, [])) ∧
    ((windowOf scanAngledNext
        [(tokHash, 0, 1, 1), (tokIncludeNext, 1, 13, 1),
          (tokAString, 14, 23, 1)]).handleIncludeDirective 24 scanAngledNext =
      some (some { Path := ascii "stdio.h", Kind := IncludeAngled, IncludeNext := true,
                   Line := 1, Pos := 0, End := 24, NlPad := [10] }, [])) ∧
    ((0 : Nat) ≤ 24 ∧ 24 ≤ scanAngledNext.input.length) ∧
    (true = true ↔ tokIncludeNext = tokIncludeNext) :=
  ⟨by decide, by decide,
   (handleIncludeDirective_fields
      (windowOf scanAngledNext
        [(tokHash, 0, 1, 1), (tokIncludeNext, 1, 13, 1), (tokAString, 14, 23, 1)])
      24 scanAngledNext
      { Path := ascii "stdio.h", Kind := IncludeAngled, IncludeNext := true,
        Line := 1, Pos := 0, End := 24, NlPad := [10] } [] (by decide)).2.2.2.2.1,
   (handleIncludeDirective_fields
      (windowOf scanAngledNext
        [(tokHash, 0, 1, 1), (tokIncludeNext, 1, 13, 1), (tokAString, 14, 23, 1)])
      24 scanAngledNext
      { Path := ascii "stdio.h", Kind := IncludeAngled, IncludeNext := true,
        Line := 1, Pos := 0, End := 24, NlPad := [10] } [] (by decide)).2.2.2.2.2⟩

theorem contLen_append_ne_zero {a : List Nat} (b : List Nat) (h : contLen a ≠ 0) :
    contLen (a ++ b) ≠ 0 := by
  obtain ⟨ws, c, rest, e, hws, hc⟩ := contLen_ne_zero h
  have hk := contLen_cont ws c (rest ++ b) hws hc
  have e2 : a ++ b = bBackslash :: (ws ++ c :: (rest ++ b)) := by rw [e]; simp
  rw [e2, hk]
  omega

theorem distCont_eq_length_of_forall {l : List Nat}
    (h : ∀ j, j < l.length → contLen (l.drop j) = 0) : distCont l = l.length := by
  by_contra hne
  have hlt : distCont l < l.length := lt_of_le_of_ne (distCont_le l) hne
  exact distCont_lt hlt (h _ hlt)

theorem removeLineCont_slice {input : List Nat} {pos end_ : Nat}
    (hspan : pos ≤ end_ ∧ end_ ≤ input.length)
    (hno : ∀ p, pos ≤ p → p < end_ → skipLineCont input p = p) :
    removeLineCont (slice input pos end_) = slice input pos end_ := by
  rw [removeLineCont_eq_strip]
  apply strip_of_distCont_eq
  apply distCont_eq_length_of_forall
  intro j hj
  have hlen : (slice input pos end_).length = end_ - pos := by
    simp only [slice, List.length_take, List.length_drop]
    omega
  rw [hlen] at hj
  by_contra hne
  have hs := skipLineCont_eq input (pos + j) (by omega)
  have hp := hno (pos + j) (by omega) (by omega)
  have hsplit : input.drop (pos + j) =
      (slice input pos end_).drop j ++ input.drop end_ := by
    have h1 : (slice input pos end_).drop j = (input.drop (pos + j)).take (end_ - pos - j) := by
      simp only [slice, List.drop_take, List.drop_drop]
    have h2 : input.drop end_ = (input.drop (pos + j)).drop (end_ - pos - j) := by
      rw [List.drop_drop]
      congr 1
      omega
    rw [h1, h2, List.take_append_drop]
  have := contLen_append_ne_zero (input.drop end_) hne
  rw [← hsplit] at this
  omega

/-- C19: for a token whose span `pos <= end <= len(input)` holds no offset at
which a line continuation of the input starts, `removeLineCont` leaves
`input[pos:end]` as it is, so that `token.string` returns `input[pos:end]`
whatever the value of `prevSoftEnd`; and for every token with a span in range
and `pos <= prevSoftEnd`, `token.string` returns `removeLineCont(input[pos:end])`.
`token.string` only computes a text: the fields of the token stay as they are. -/
theorem token_string_prevSoftEnd (t : token) (s : Scanner)
    (hspan : t.pos ≤ t.end_ ∧ t.end_ ≤ s.input.length) :
    ((∀ p, t.pos ≤ p → p < t.end_ → skipLineCont s.input p = p) →
      removeLineCont (slice s.input t.pos t.end_) = slice s.input t.pos t.end_ ∧
        ∀ prev, ({ t with prevSoftEnd := prev } : token).string s =
          some (slice s.input t.pos t.end_)) ∧
    (t.pos ≤ t.prevSoftEnd →
      t.string s = some (removeLineCont (slice s.input t.pos t.end_))) := by
  constructor
  · intro hno
    have hr := removeLineCont_slice hspan hno
    refine ⟨hr, ?_⟩
    intro prev
    unfold token.string
    simp only [slice?_eq_some hspan, hr, ite_self]
  · intro hp
    unfold token.string
    simp only [slice?_eq_some hspan, if_pos hp]

/-- C19 witnesses, in `#in\` LF `clude <std\` LF `io.h>` LF: the span of the `#` holds
no continuation, and the text of the keyword token at offsets 1 to 10, which has
`pos <= prevSoftEnd`, is `include`. -/
theorem token_string_prevSoftEnd_witness :
    (removeLineCont (slice scanLineCont.input 0 1) = slice scanLineCont.input 0 1 ∧
      ∀ prev, ({ kind := tokHash, pos := 0, end_ := 1, line := 1, prevSoftEnd := prev } :
        token).string scanLineCont = some (slice scanLineCont.input 0 1)) ∧
    ({ kind := tokInclude, pos := 1, end_ := 10, line := 1, prevSoftEnd := 3 } :
        token).string scanLineCont =
      some (removeLineCont (slice scanLineCont.input 1 10)) ∧
    removeLineCont (slice scanLineCont.input 1 10) = ascii "include" :=
  ⟨(token_string_prevSoftEnd
      { kind := tokHash, pos := 0, end_ := 1, line := 1, prevSoftEnd := 0 } scanLineCont
      (by decide)).1 (by
        intro p _ h
        have hp : p = 0 := by
          have : p < 1 := h
          omega
        subst hp
        decide),
   (token_string_prevSoftEnd
      { kind := tokInclude, pos := 1, end_ := 10, line := 1, prevSoftEnd := 3 } scanLineCont
      (by decide)).2 (by decide),
   by decide⟩

/-! ## Lemmas on the Go library functions -/

theorem byteAt_append_right (a l : List Nat) (k : Nat) :
    byteAt (a ++ l) (a.length + k) = byteAt l k := by
  unfold byteAt
  rw [List.getD_eq_getElem?_getD, List.getD_eq_getElem?_getD,
    List.getElem?_append_right (Nat.le_add_right _ _), Nat.add_sub_cancel_left]

theorem byteAt_append_left (a l : List Nat) (k : Nat) (h : k < a.length) :
    byteAt (a ++ l) k = byteAt a k := by
  unfold byteAt
  rw [List.getD_eq_getElem?_getD, List.getD_eq_getElem?_getD, List.getElem?_append_left h]

theorem byteAt_mem (l : List Nat) (k : Nat) (h : k < l.length) : byteAt l k ∈ l := by
  unfold byteAt
  rw [List.getD_eq_getElem _ _ h]
  exact List.getElem_mem h

theorem utf8First_table (c : Nat) :
    (c < 0x80 ∧ utf8First c = 0xF0) ∨
    (0x80 ≤ c ∧ (c < 0xC2 ∨ 0xF4 < c) ∧ utf8First c = 0xF1) ∨
    (0xC2 ≤ c ∧ c < 0xE0 ∧ utf8First c = 0x02) ∨
    (c = 0xE0 ∧ utf8First c = 0x13) ∨
    (0xE1 ≤ c ∧ c < 0xF0 ∧ c ≠ 0xED ∧ utf8First c = 0x03) ∨
    (c = 0xED ∧ utf8First c = 0x23) ∨
    (c = 0xF0 ∧ utf8First c = 0x34) ∨
    (0xF1 ≤ c ∧ c < 0xF4 ∧ utf8First c = 0x04) ∨
    (c = 0xF4 ∧ utf8First c = 0x44) := by
  unfold utf8First
  repeat' split
  all_goals omega

theorem utf8First_size (c : Nat) (h : ¬ c < 0x80) (hx : utf8First c ≠ 0xF1) :
    2 ≤ utf8First c % 8 ∧ utf8First c % 8 ≤ 4 := by
  have := utf8First_table c
  omega

theorem utf8RuneSize_pos (s : List Nat) (i : Nat) : 1 ≤ utf8RuneSize s i := by
  unfold utf8RuneSize
  simp only
  by_cases h : byteAt s i < 0x80
  · rw [if_pos h]
  · rw [if_neg h]
    by_cases hx : utf8First (byteAt s i) = 0xF1
    · rw [if_pos hx]
    · rw [if_neg hx]
      have hs := utf8First_size _ h hx
      generalize utf8First (byteAt s i) = x at hs
      repeat' split
      all_goals omega

theorem utf8RuneSize_le (s : List Nat) (i : Nat) (h : i < s.length) :
    i + utf8RuneSize s i ≤ s.length := by
  unfold utf8RuneSize
  simp only
  generalize utf8First (byteAt s i) = x
  repeat' split
  all_goals omega

theorem utf8RuneSize_ascii (s : List Nat) (i : Nat) (h : byteAt s i < 0x80) :
    utf8RuneSize s i = 1 := by
  unfold utf8RuneSize
  simp only [if_pos h]

/-- The size of a well-formed sequence of `n` bytes, `2 <= n <= 4`, at offset `i`. -/
theorem utf8RuneSize_of_valid (s : List Nat) (i n : Nat)
    (hc : ¬ byteAt s i < 0x80) (hx : utf8First (byteAt s i) ≠ 0xF1)
    (hn : utf8First (byteAt s i) % 8 = n) (hn2 : 2 ≤ n ∧ n ≤ 4) (hlen : i + n ≤ s.length)
    (h1 : (utf8AcceptRange (utf8First (byteAt s i) / 16)).1 ≤ byteAt s (i + 1) ∧
      byteAt s (i + 1) ≤ (utf8AcceptRange (utf8First (byteAt s i) / 16)).2)
    (h2 : 3 ≤ n → 0x80 ≤ byteAt s (i + 2) ∧ byteAt s (i + 2) ≤ 0xBF)
    (h3 : 4 ≤ n → 0x80 ≤ byteAt s (i + 3) ∧ byteAt s (i + 3) ≤ 0xBF) :
    utf8RuneSize s i = n := by
  unfold utf8RuneSize
  simp only
  rw [if_neg hc, if_neg hx, hn, if_neg (by omega), if_neg (by omega)]
  by_cases e2 : n = 2
  · rw [if_pos e2]
  · rw [if_neg e2, if_neg (by have := h2 (by omega); omega)]
    by_cases e3 : n = 3
    · rw [if_pos e3]
    · rw [if_neg e3, if_neg (by have := h3 (by omega); omega)]

theorem byteAt_cons_zero (b : Nat) (l : List Nat) : byteAt (b :: l) 0 = b := rfl

theorem byteAt_cons_succ (b : Nat) (l : List Nat) (k : Nat) :
    byteAt (b :: l) (k + 1) = byteAt l k := rfl

theorem utf8EncodeRune_length (r : Nat) :
    1 ≤ (utf8EncodeRune r).length ∧ (utf8EncodeRune r).length ≤ 4 := by
  unfold utf8EncodeRune
  repeat' split
  all_goals simp

theorem utf8RuneSize_encode_zero (r : Nat) (hr : isScalar r) (rest : List Nat) :
    utf8RuneSize (utf8EncodeRune r ++ rest) 0 = (utf8EncodeRune r).length := by
  unfold isScalar at hr
  unfold utf8EncodeRune
  by_cases h1 : r < 0x80
  · simp only [if_pos h1, List.length_singleton]
    exact utf8RuneSize_ascii _ _ (by simpa [byteAt] using h1)
  · rw [if_neg h1]
    by_cases h2 : r < 0x800
    · rw [if_pos h2]
      have ht := utf8First_table (0xC0 + r / 64)
      apply utf8RuneSize_of_valid
      all_goals
        simp only [List.cons_append, List.nil_append, byteAt_cons_zero, Nat.zero_add,
          byteAt_cons_succ, List.length_cons, List.length_nil]
      · omega
      · omega
      · omega
      · omega
      · omega
      · have hx : utf8First (0xC0 + r / 64) = 0x02 := by omega
        rw [hx]
        simp only [utf8AcceptRange]
        norm_num
        omega
      · omega
      · omega
    · rw [if_neg h2]
      by_cases h3 : r < 0x10000
      · rw [if_pos h3]
        have ht := utf8First_table (0xE0 + r / 4096)
        have hx : (r / 4096 = 0 ∧ utf8First (0xE0 + r / 4096) = 0x13) ∨
            (r / 4096 = 13 ∧ utf8First (0xE0 + r / 4096) = 0x23) ∨
            (r / 4096 ≠ 0 ∧ r / 4096 ≠ 13 ∧ utf8First (0xE0 + r / 4096) = 0x03) := by omega
        apply utf8RuneSize_of_valid
        all_goals
          simp only [List.cons_append, List.nil_append, byteAt_cons_zero, Nat.zero_add,
            byteAt_cons_succ, List.length_cons, List.length_nil]
        · omega
        · omega
        · omega
        · omega
        · omega
        · rcases hx with ⟨hq, hx⟩ | ⟨hq, hx⟩ | ⟨hq, hq2, hx⟩ <;> rw [hx] <;>
            simp only [utf8AcceptRange] <;> norm_num <;> omega
        · intro _; omega
        · intro h; omega
      · rw [if_neg h3]
        have ht := utf8First_table (0xF0 + r / 262144)
        have hx : (r / 262144 = 0 ∧ utf8First (0xF0 + r / 262144) = 0x34) ∨
            (r / 262144 = 4 ∧ utf8First (0xF0 + r / 262144) = 0x44) ∨
            (r / 262144 ≠ 0 ∧ r / 262144 ≠ 4 ∧ utf8First (0xF0 + r / 262144) = 0x04) := by
          omega
        apply utf8RuneSize_of_valid
        all_goals
          simp only [List.cons_append, List.nil_append, byteAt_cons_zero, Nat.zero_add,
            byteAt_cons_succ, List.length_cons, List.length_nil]
        · omega
        · omega
        · omega
        · omega
        · omega
        · rcases hx with ⟨hq, hx⟩ | ⟨hq, hx⟩ | ⟨hq, hq2, hx⟩ <;> rw [hx] <;>
            simp only [utf8AcceptRange] <;> norm_num <;> omega
        · intro _; omega
        · intro _; omega

theorem utf8RuneSize_append_left (a l : List Nat) :
    utf8RuneSize (a ++ l) a.length = utf8RuneSize l 0 := by
  have e0 : byteAt (a ++ l) a.length = byteAt l 0 := byteAt_append_right a l 0
  unfold utf8RuneSize
  simp only [byteAt_append_right, e0, Nat.zero_add, List.length_append, gt_iff_lt,
    Nat.add_lt_add_iff_left]

/-- The loop of `utf8.RuneCountInString` gives the same count for every amount of
fuel from the number of bytes left upwards. -/
theorem utf8RuneCountLoop_fuel (s : List Nat) :
    ∀ (fuel1 fuel2 i n : Nat), s.length - i ≤ fuel1 → s.length - i ≤ fuel2 →
      utf8RuneCountLoop s fuel1 i n = utf8RuneCountLoop s fuel2 i n := by
  intro fuel1
  induction fuel1 with
  | zero =>
    intro fuel2 i n h1 _
    have hi : ¬ i < s.length := by omega
    cases fuel2 with
    | zero => rfl
    | succ f => simp only [utf8RuneCountLoop, if_neg hi]
  | succ f1 ih =>
    intro fuel2 i n h1 h2
    by_cases hi : i < s.length
    · cases fuel2 with
      | zero => omega
      | succ f2 =>
        have hp := utf8RuneSize_pos s i
        simp only [utf8RuneCountLoop, if_pos hi]
        exact ih f2 _ _ (by omega) (by omega)
    · cases fuel2 with
      | zero => simp only [utf8RuneCountLoop, if_neg hi]
      | succ f2 => simp only [utf8RuneCountLoop, if_neg hi]

theorem utf8RuneCountLoop_bounds (s : List Nat) :
    ∀ (fuel i n : Nat), i ≤ s.length → s.length - i ≤ fuel →
      n ≤ utf8RuneCountLoop s fuel i n ∧
        utf8RuneCountLoop s fuel i n ≤ n + (s.length - i) := by
  intro fuel
  induction fuel with
  | zero =>
    intro i n _ _
    simp only [utf8RuneCountLoop]
    omega
  | succ f ih =>
    intro i n h1 h2
    by_cases hi : i < s.length
    · have hp := utf8RuneSize_pos s i
      have hl := utf8RuneSize_le s i hi
      have := ih (i + utf8RuneSize s i) (n + 1) hl (by omega)
      simp only [utf8RuneCountLoop, if_pos hi]
      omega
    · simp only [utf8RuneCountLoop, if_neg hi]
      omega

theorem utf8RuneCountLoop_ascii (s : List Nat) (hs : ∀ b ∈ s, b < 0x80) :
    ∀ (fuel i n : Nat), i ≤ s.length → s.length - i ≤ fuel →
      utf8RuneCountLoop s fuel i n = n + (s.length - i) := by
  intro fuel
  induction fuel with
  | zero =>
    intro i n _ _
    simp only [utf8RuneCountLoop]
    omega
  | succ f ih =>
    intro i n h1 h2
    by_cases hi : i < s.length
    · have h1 : utf8RuneSize s i = 1 := utf8RuneSize_ascii s i (hs _ (byteAt_mem s i hi))
      simp only [utf8RuneCountLoop, if_pos hi, h1]
      rw [ih (i + 1) (n + 1) (by omega) (by omega)]
      omega
    · simp only [utf8RuneCountLoop, if_neg hi]
      omega

theorem utf8RuneCountLoop_encode (rs : List Nat) (hrs : ∀ r ∈ rs, isScalar r) :
    ∀ (a : List Nat) (fuel n : Nat), (utf8Encode rs).length ≤ fuel →
      utf8RuneCountLoop (a ++ utf8Encode rs) fuel a.length n = n + rs.length := by
  induction rs with
  | nil =>
    intro a fuel n _
    have hi : ¬ a.length < (a ++ utf8Encode []).length := by simp [utf8Encode]
    cases fuel with
    | zero => rfl
    | succ f => simp only [utf8RuneCountLoop, if_neg hi, List.length_nil, Nat.add_zero]
  | cons r rs ih =>
    intro a fuel n hf
    have hr := hrs r (List.mem_cons_self _ _)
    have hlen := utf8EncodeRune_length r
    have hsz : utf8RuneSize (a ++ utf8Encode (r :: rs)) a.length = (utf8EncodeRune r).length := by
      rw [utf8RuneSize_append_left, utf8Encode, utf8RuneSize_encode_zero r hr]
    have hi : a.length < (a ++ utf8Encode (r :: rs)).length := by
      simp only [utf8Encode, List.length_append]
      omega
    simp only [utf8Encode, List.length_append] at hf
    cases fuel with
    | zero => omega
    | succ f =>
      simp only [utf8RuneCountLoop, if_pos hi, hsz]
      have e : a ++ utf8Encode (r :: rs) = (a ++ utf8EncodeRune r) ++ utf8Encode rs := by
        simp [utf8Encode]
      have e2 : a.length + (utf8EncodeRune r).length = (a ++ utf8EncodeRune r).length := by
        simp
      rw [e, e2, ih (fun x hx => hrs x (List.mem_cons_of_mem _ hx)) _ f (n + 1) (by omega),
        List.length_cons]
      omega

theorem utf8RuneCountInString_bounds (s : List Nat) :
    utf8RuneCountInString s ≤ s.length ∧
      ((∀ b ∈ s, b < 0x80) → utf8RuneCountInString s = s.length) ∧
      (∀ rs, (∀ r ∈ rs, isScalar r) → s = utf8Encode rs →
        utf8RuneCountInString s = rs.length) := by
  unfold utf8RuneCountInString
  refine ⟨?_, ?_, ?_⟩
  · have := (utf8RuneCountLoop_bounds s s.length 0 0 (Nat.zero_le _) (by omega)).2
    omega
  · intro hs
    rw [utf8RuneCountLoop_ascii s hs s.length 0 0 (Nat.zero_le _) (by omega)]
    omega
  · intro rs hrs e
    subst e
    have := utf8RuneCountLoop_encode rs hrs [] (utf8Encode rs).length 0 (le_refl _)
    simpa using this

theorem stringsLastIndexAnyFrom_spec (chars : List Nat) :
    ∀ (l : List Nat) (i : Nat) (last : Int),
      ((∀ b ∈ l, b ∉ chars) ∧ stringsLastIndexAnyFrom chars l i last = last) ∨
      ∃ pre c suf, l = pre ++ c :: suf ∧ c ∈ chars ∧ (∀ b ∈ suf, b ∉ chars) ∧
        stringsLastIndexAnyFrom chars l i last = ((i + pre.length : Nat) : Int) := by
  intro l
  induction l with
  | nil =>
    intro i last
    left
    exact ⟨by simp, rfl⟩
  | cons b t ih =>
    intro i last
    rcases ih (i + 1) (if b ∈ chars then (i : Int) else last) with
      ⟨hno, hval⟩ | ⟨pre, c, suf, e, hc, hsuf, hval⟩
    · by_cases hb : b ∈ chars
      · right
        refine ⟨[], b, t, rfl, hb, hno, ?_⟩
        rw [stringsLastIndexAnyFrom, hval, if_pos hb]
        simp
      · left
        refine ⟨?_, ?_⟩
        · intro x hx
          rcases List.mem_cons.mp hx with hx | hx
          · rw [hx]; exact hb
          · exact hno x hx
        · rw [stringsLastIndexAnyFrom, hval, if_neg hb]
    · right
      refine ⟨b :: pre, c, suf, by rw [e]; rfl, hc, hsuf, ?_⟩
      rw [stringsLastIndexAnyFrom, hval, List.length_cons]
      congr 1
      omega

theorem stringsIndexAnyFrom_spec (chars : List Nat) :
    ∀ (l : List Nat) (i : Nat),
      ((∀ b ∈ l, b ∉ chars) ∧ stringsIndexAnyFrom chars l i = -1) ∨
      ∃ pre c suf, l = pre ++ c :: suf ∧ c ∈ chars ∧ (∀ b ∈ pre, b ∉ chars) ∧
        stringsIndexAnyFrom chars l i = ((i + pre.length : Nat) : Int) := by
  intro l
  induction l with
  | nil =>
    intro i
    left
    exact ⟨by simp, rfl⟩
  | cons b t ih =>
    intro i
    by_cases hb : b ∈ chars
    · right
      refine ⟨[], b, t, rfl, hb, by simp, ?_⟩
      rw [stringsIndexAnyFrom, if_pos hb]
      simp
    · rcases ih (i + 1) with ⟨hno, hval⟩ | ⟨pre, c, suf, e, hc, hpre, hval⟩
      · left
        refine ⟨?_, ?_⟩
        · intro x hx
          rcases List.mem_cons.mp hx with hx | hx
          · rw [hx]; exact hb
          · exact hno x hx
        · rw [stringsIndexAnyFrom, if_neg hb, hval]
      · right
        refine ⟨b :: pre, c, suf, by rw [e]; rfl, hc, ?_, ?_⟩
        · intro x hx
          rcases List.mem_cons.mp hx with hx | hx
          · rw [hx]; exact hb
          · exact hpre x hx
        · rw [stringsIndexAnyFrom, if_neg hb, hval, List.length_cons]
          congr 1
          omega

theorem mem_newlines (b : Nat) : b ∈ [bCR, bLF] ↔ (b = bCR ∨ b = bLF) := by
  simp

theorem not_mem_newlines (b : Nat) : b ∉ [bCR, bLF] ↔ (b ≠ bCR ∧ b ≠ bLF) := by
  simp

theorem lineStart_spec (before : List Nat) :
    ∃ H suf, before = H ++ suf ∧
      (H = [] ∨ ∃ h c, H = h ++ [c] ∧ (c = bCR ∨ c = bLF)) ∧
      (∀ b ∈ suf, b ≠ bCR ∧ b ≠ bLF) ∧
      (1 + stringsLastIndexAny before [bCR, bLF]).toNat = H.length := by
  rcases stringsLastIndexAnyFrom_spec [bCR, bLF] before 0 (-1) with
    ⟨hno, hval⟩ | ⟨pre, c, suf, e, hc, hsuf, hval⟩
  · refine ⟨[], before, rfl, Or.inl rfl, fun b hb => (not_mem_newlines b).mp (hno b hb), ?_⟩
    unfold stringsLastIndexAny
    rw [hval]
    rfl
  · refine ⟨pre ++ [c], suf, by rw [e]; simp, Or.inr ⟨pre, c, rfl, (mem_newlines c).mp hc⟩,
      fun b hb => (not_mem_newlines b).mp (hsuf b hb), ?_⟩
    unfold stringsLastIndexAny
    rw [hval]
    simp only [Nat.zero_add, List.length_append, List.length_singleton]
    omega

theorem lineEnd_spec (quote : List Nat) :
    ∃ L T, quote = L ++ T ∧ (∀ b ∈ L, b ≠ bCR ∧ b ≠ bLF) ∧
      (T = [] ∨ ∃ c t, T = c :: t ∧ (c = bCR ∨ c = bLF)) ∧
      ((stringsIndexAny quote [bCR, bLF] = -1 ∧ L = quote) ∨
        (stringsIndexAny quote [bCR, bLF] ≠ -1 ∧
          slice? quote 0 (stringsIndexAny quote [bCR, bLF]).toNat = some L)) := by
  rcases stringsIndexAnyFrom_spec [bCR, bLF] quote 0 with
    ⟨hno, hval⟩ | ⟨pre, c, suf, e, hc, hpre, hval⟩
  · exact ⟨quote, [], by simp, fun b hb => (not_mem_newlines b).mp (hno b hb), Or.inl rfl,
      Or.inl ⟨hval, rfl⟩⟩
  · refine ⟨pre, c :: suf, e, fun b hb => (not_mem_newlines b).mp (hpre b hb),
      Or.inr ⟨c, suf, rfl, (mem_newlines c).mp hc⟩, Or.inr ?_⟩
    unfold stringsIndexAny
    rw [hval]
    refine ⟨by omega, ?_⟩
    have hn : ((0 + pre.length : Nat) : Int).toNat = pre.length := by simp
    rw [hn, slice?_eq_some ⟨Nat.zero_le _, by rw [e]; simp⟩, e]
    simp [slice]

theorem prefix_of_no_newline {suf after L T : List Nat} (e : suf ++ after = L ++ T)
    (hsuf : ∀ b ∈ suf, b ≠ bCR ∧ b ≠ bLF)
    (hT : T = [] ∨ ∃ c t, T = c :: t ∧ (c = bCR ∨ c = bLF)) : suf.length ≤ L.length := by
  rcases List.append_eq_append_iff.mp e with ⟨a, e1, _⟩ | ⟨a, e1, e2⟩
  · rw [e1, List.length_append]
    omega
  · rcases hT with hT | ⟨c, t, hT, hc⟩
    · subst hT
      have ha : a = [] := by
        have := congrArg List.length e2
        simp only [List.length_nil, List.length_append] at this
        exact List.length_eq_zero.mp (by omega)
      rw [e1, ha]
      simp
    · subst hT
      cases a with
      | nil => rw [e1]; simp
      | cons x a =>
        have hx : c = x := by
          have := congrArg List.head? e2
          simpa using this
        have hmem : x ∈ suf := by rw [e1]; simp
        have := hsuf x hmem
        rw [← hx] at this
        rcases hc with hc | hc
        · exact absurd hc this.1
        · exact absurd hc this.2

/-- What `Error.quoteInput` returns for an offset within the input: the input is
`H ++ L ++ T`, where `H` is empty or ends with a newline byte, `L` holds no newline
byte, `T` is empty or starts with a newline byte and the offset lies in `L` or at
its end; the result is `L` and the offset relative to `L`. -/
theorem quoteInput_spec (err : Error) (hpos : err.pos ≤ err.input.length) :
    ∃ H L T, err.input = H ++ (L ++ T) ∧
      (H = [] ∨ ∃ h c, H = h ++ [c] ∧ (c = bCR ∨ c = bLF)) ∧
      (∀ b ∈ L, b ≠ bCR ∧ b ≠ bLF) ∧
      (T = [] ∨ ∃ c t, T = c :: t ∧ (c = bCR ∨ c = bLF)) ∧
      H.length ≤ err.pos ∧ err.pos ≤ H.length + L.length ∧
      err.quoteInput = some (L, err.pos - H.length) := by
  obtain ⟨H, suf, e1, hH, hsuf, hls⟩ := lineStart_spec (err.input.take err.pos)
  have hs0 : slice? err.input 0 err.pos = some (err.input.take err.pos) := by
    rw [slice?_eq_some ⟨Nat.zero_le _, hpos⟩]
    simp [slice]
  have hlen : H.length + suf.length = err.pos := by
    have := congrArg List.length e1
    rw [List.length_take, List.length_append, Nat.min_eq_left hpos] at this
    omega
  have hin : err.input = H ++ (suf ++ err.input.drop err.pos) := by
    rw [← List.append_assoc, ← e1, List.take_append_drop]
  have hq : slice? err.input H.length err.input.length = some (suf ++ err.input.drop err.pos) := by
    rw [slice?_eq_some ⟨by omega, le_refl _⟩]
    congr 1
    unfold slice
    rw [List.take_of_length_le (by rw [List.length_drop])]
    conv_lhs => rw [hin]
    rw [List.drop_left]
  obtain ⟨L, T, e2, hL, hT, hcase⟩ := lineEnd_spec (suf ++ err.input.drop err.pos)
  have hpre := prefix_of_no_newline e2 hsuf hT
  refine ⟨H, L, T, by rw [← e2]; exact hin, hH, hL, hT, by omega, by omega, ?_⟩
  unfold Error.quoteInput
  simp only [hs0, hls, hq]
  rcases hcase with ⟨hv, hLq⟩ | ⟨hv, hsl⟩
  · simp only [hv, ne_eq, not_true_eq_false, if_false, hLq]
  · simp only [ne_eq, hv, not_false_eq_true, if_true, hsl]

theorem stringsRepeat_singleton (b : Nat) (n : Nat) :
    stringsRepeat [b] n = List.replicate n b := by
  induction n with
  | zero => rfl
  | succ n ih => rw [stringsRepeat, ih, List.replicate_succ]; rfl

/-- From the decomposition of `quoteInput_spec` to offsets: with `ls` the length
of `H` and `le` the length of `H ++ L`. -/
theorem line_offsets {input H L T : List Nat} (e : input = H ++ (L ++ T))
    (hH : H = [] ∨ ∃ h c, H = h ++ [c] ∧ (c = bCR ∨ c = bLF))
    (hL : ∀ b ∈ L, b ≠ bCR ∧ b ≠ bLF)
    (hT : T = [] ∨ ∃ c t, T = c :: t ∧ (c = bCR ∨ c = bLF)) :
    H.length + L.length ≤ input.length ∧
    (H.length = 0 ∨ 0 < H.length ∧
      (byteAt input (H.length - 1) = bCR ∨ byteAt input (H.length - 1) = bLF)) ∧
    (∀ i, H.length ≤ i → i < H.length + L.length →
      byteAt input i ≠ bCR ∧ byteAt input i ≠ bLF) ∧
    (H.length + L.length = input.length ∨
      byteAt input (H.length + L.length) = bCR ∨ byteAt input (H.length + L.length) = bLF) ∧
    (∀ p, H.length ≤ p → p ≤ H.length + L.length →
      slice input H.length p = L.take (p - H.length)) := by
  refine ⟨?_, ?_, ?_, ?_, ?_⟩
  · rw [e]
    simp only [List.length_append]
    omega
  · rcases hH with hH | ⟨h, c, hH, hc⟩
    · left; rw [hH]; rfl
    · right
      have hb : byteAt input (H.length - 1) = c := by
        have e2 : input = h ++ (c :: (L ++ T)) := by rw [e, hH]; simp
        have e3 : H.length - 1 = h.length + 0 := by rw [hH]; simp
        rw [e3, e2, byteAt_append_right, byteAt_cons_zero]
      rw [hb]
      exact ⟨by rw [hH]; simp, hc⟩
  · intro i h1 h2
    have e3 : i = H.length + (i - H.length) := by omega
    have hb : byteAt input i = byteAt L (i - H.length) := by
      rw [e3, e, byteAt_append_right, byteAt_append_left _ _ _ (by omega)]
      congr 1
      omega
    rw [hb]
    exact hL _ (byteAt_mem L _ (by omega))
  · rcases hT with hT | ⟨c, t, hT, hc⟩
    · left
      rw [e, hT]
      simp
    · right
      have hb : byteAt input (H.length + L.length) = c := by
        have e2 : input = (H ++ L) ++ (c :: t) := by rw [e, hT]; simp
        have e3 : H.length + L.length = (H ++ L).length + 0 := by simp
        rw [e3, e2, byteAt_append_right, byteAt_cons_zero]
      rw [hb]
      exact hc
  · intro p h1 h2
    unfold slice
    rw [e, List.drop_left, List.take_append_of_le_length (by omega)]

/-- The result of `Error.column` in terms of the decomposition of `quoteInput_spec`. -/
theorem column_of_quoteInput {err : Error} {L : List Nat} {rel : Nat}
    (hq : err.quoteInput = some (L, rel)) (hrel : rel ≤ L.length) :
    err.column = some (1 + utf8RuneCountInString (L.take rel)) ∧
    err.Quote = some (L ++ [bLF] ++
      List.replicate (utf8RuneCountInString (L.take rel)) bSpace ++ [94]) := by
  have hs : slice? L 0 rel = some (L.take rel) := by
    rw [slice?_eq_some ⟨Nat.zero_le _, hrel⟩]
    simp [slice]
  constructor
  · unfold Error.column
    simp only [hq, hs]
  · unfold Error.Quote
    simp only [hq, hs, stringsRepeat_singleton]

/-! ## Claims about the diagnostics -/

/-- C16: for an error at an offset `pos <= len(input)`, `Error.column` is defined.
With `ls` the offset just after the last `'\r'` or `'\n'` before `pos` (`0` if there
is none), the column is 1 plus the number of runes that Go counts in
`input[ls:pos]`; it is at least 1 and at most `pos - ls + 1`, it is `pos - ls + 1`
if `input[ls:pos]` is ASCII text, and it is 1 plus the number of code points if
`input[ls:pos]` is the UTF-8 encoding of a sequence of code points. -/
theorem column_spec (err : Error) (hpos : err.pos ≤ err.input.length) :
    ∃ ls col, ls ≤ err.pos ∧
      (ls = 0 ∨ 0 < ls ∧
        (byteAt err.input (ls - 1) = bCR ∨ byteAt err.input (ls - 1) = bLF)) ∧
      (∀ i, ls ≤ i → i < err.pos →
        byteAt err.input i ≠ bCR ∧ byteAt err.input i ≠ bLF) ∧
      err.column = some col ∧
      col = 1 + utf8RuneCountInString (slice err.input ls err.pos) ∧
      1 ≤ col ∧ col ≤ err.pos - ls + 1 ∧
      ((∀ b ∈ slice err.input ls err.pos, b < 0x80) → col = err.pos - ls + 1) ∧
      (∀ rs, (∀ r ∈ rs, isScalar r) → slice err.input ls err.pos = utf8Encode rs →
        col = 1 + rs.length) := by
  obtain ⟨H, L, T, e, hH, hL, hT, h1, h2, hq⟩ := quoteInput_spec err hpos
  obtain ⟨_, o2, o3, _, o5⟩ := line_offsets e hH hL hT
  have hsl := o5 err.pos h1 h2
  have hcol := (column_of_quoteInput hq (by omega)).1
  have hb := utf8RuneCountInString_bounds (slice err.input H.length err.pos)
  have hlen : (slice err.input H.length err.pos).length = err.pos - H.length := by
    rw [hsl, List.length_take]
    omega
  rw [hlen] at hb
  refine ⟨H.length, 1 + utf8RuneCountInString (slice err.input H.length err.pos), h1, o2,
    fun i hi1 hi2 => o3 i hi1 (by omega), by rw [hcol, hsl], rfl, by omega, by omega, ?_, ?_⟩
  · intro ha
    rw [hb.2.1 ha]
    omega
  · intro rs hrs hrs2
    rw [hb.2.2 rs hrs hrs2]

/-- C17: for an error at an offset `pos <= len(input)`, `Error.Quote` is the
physical line `L` holding `pos`, a `'\n'`, `column() - 1` spaces and a `^`.  Here
`L = input[ls:le]`, where `ls` is the offset just after the last `'\r'` or `'\n'`
before `pos` (`0` if there is none) and `le` the offset of the first `'\r'` or `'\n'`
from `ls` on (the end of the input if there is none); `L` holds no `'\r'` or `'\n'`
and `ls <= pos <= le`. -/
theorem Quote_spec (err : Error) (hpos : err.pos ≤ err.input.length) :
    ∃ ls le col, ls ≤ err.pos ∧ err.pos ≤ le ∧ le ≤ err.input.length ∧
      (ls = 0 ∨ 0 < ls ∧
        (byteAt err.input (ls - 1) = bCR ∨ byteAt err.input (ls - 1) = bLF)) ∧
      (∀ i, ls ≤ i → i < le → byteAt err.input i ≠ bCR ∧ byteAt err.input i ≠ bLF) ∧
      (le = err.input.length ∨ byteAt err.input le = bCR ∨ byteAt err.input le = bLF) ∧
      (∀ b ∈ slice err.input ls le, b ≠ bCR ∧ b ≠ bLF) ∧
      err.column = some col ∧
      err.Quote =
        some (slice err.input ls le ++ [bLF] ++ List.replicate (col - 1) bSpace ++ [94]) := by
  obtain ⟨H, L, T, e, hH, hL, hT, h1, h2, hq⟩ := quoteInput_spec err hpos
  obtain ⟨o1, o2, o3, o4, o5⟩ := line_offsets e hH hL hT
  have hsl : slice err.input H.length (H.length + L.length) = L := by
    rw [o5 _ (by omega) (le_refl _), Nat.add_sub_cancel_left, List.take_length]
  obtain ⟨hcol, hquote⟩ := column_of_quoteInput hq (by omega)
  refine ⟨H.length, H.length + L.length,
    1 + utf8RuneCountInString (L.take (err.pos - H.length)), h1, h2, o1, o2, o3, o4, ?_,
    hcol, ?_⟩
  · rw [hsl]
    exact hL
  · rw [hsl, hquote, Nat.add_sub_cancel_left]

/-- C16 witnesses: the error after `#include ` in `#include <stdio.h` LF has column
10; an error after the two-byte `é` that starts line 2 has column 2. -/
theorem column_spec_witness :
    (∃ ls col, ls ≤ errUntermAngled.pos ∧
      (ls = 0 ∨ 0 < ls ∧
        (byteAt errUntermAngled.input (ls - 1) = bCR ∨
          byteAt errUntermAngled.input (ls - 1) = bLF)) ∧
      (∀ i, ls ≤ i → i < errUntermAngled.pos →
        byteAt errUntermAngled.input i ≠ bCR ∧ byteAt errUntermAngled.input i ≠ bLF) ∧
      errUntermAngled.column = some col ∧
      col = 1 + utf8RuneCountInString (slice errUntermAngled.input ls errUntermAngled.pos) ∧
      1 ≤ col ∧ col ≤ errUntermAngled.pos - ls + 1 ∧
      ((∀ b ∈ slice errUntermAngled.input ls errUntermAngled.pos, b < 0x80) →
        col = errUntermAngled.pos - ls + 1) ∧
      (∀ rs, (∀ r ∈ rs, isScalar r) →
        slice errUntermAngled.input ls errUntermAngled.pos = utf8Encode rs →
        col = 1 + rs.length)) ∧
    errUntermAngled.column = some 10 ∧
    errAccent.column = some 2 ∧
    slice errAccent.input 4 6 = utf8Encode [233] :=
  ⟨column_spec errUntermAngled (by decide), by decide, by decide, by decide⟩

/-- C17 witnesses: the excerpts for the same two errors. -/
theorem Quote_spec_witness :
    (∃ ls le col, ls ≤ errAccent.pos ∧ errAccent.pos ≤ le ∧
      le ≤ errAccent.input.length ∧
      (ls = 0 ∨ 0 < ls ∧
        (byteAt errAccent.input (ls - 1) = bCR ∨ byteAt errAccent.input (ls - 1) = bLF)) ∧
      (∀ i, ls ≤ i → i < le →
        byteAt errAccent.input i ≠ bCR ∧ byteAt errAccent.input i ≠ bLF) ∧
      (le = errAccent.input.length ∨ byteAt errAccent.input le = bCR ∨
        byteAt errAccent.input le = bLF) ∧
      (∀ b ∈ slice errAccent.input ls le, b ≠ bCR ∧ b ≠ bLF) ∧
      errAccent.column = some col ∧
      errAccent.Quote =
        some (slice errAccent.input ls le ++ [bLF] ++ List.replicate (col - 1) bSpace ++
          [94])) ∧
    errAccent.Quote = some [195, 169, 98, 10, 32, 94] ∧
    errUntermAngled.Quote = some (ascii "#include <stdio.h\n         ^") :=
  ⟨Quote_spec errAccent (by decide), by decide, by decide⟩

end cscan
